import Mathlib

/-!
Verification of the Tollgate chrome extension core
(`src/chrome-extension/background.js`, `src/chrome-extension/markdown.js`).

The JavaScript is shallowly embedded: task objects become a `Task`
structure, in-place object mutation becomes `updateById` on the flat task
list (task identity = `id`, unique by the data-model invariant), JS `Map`s
keyed by id become lookups over the list, and the recursive / stack-based
traversals are embedded with explicit fuel so that termination is a
provable statement rather than an assumption.  Timestamps produced by
`new Date().toISOString()` are threaded as explicit parameters.
-/

namespace Tollgate

/-- A task, as stored in `chrome.storage.local` and manipulated by
`markdown.js`.  Ids are modelled as `Nat` (the JS falsiness of `0` is kept
in `getParentId`).  Fields irrelevant to every claim (`dueDate`,
`recurring`) are omitted.  `section` is a Lean keyword, hence
`sectionName`. -/
structure Task where
  id : Nat
  text : String
  completed : Bool
  completedAt : Option String
  parentId : Option Nat
  sectionName : String
  deriving Repr, DecidableEq

/-- Ids present in a task list (order-preserving, duplicates kept). -/
def idsOf (tasks : List Task) : List Nat := tasks.map (·.id)

/-- `markdown.js` `getParentId`: a parent reference that is falsy (`null`
or the number `0`), self-referential, or dangling resolves to `null`. -/
def getParentId (tasks : List Task) (t : Task) : Option Nat :=
  match t.parentId with
  | none => none
  | some p =>
    if p = 0 then none
    else if p = t.id then none
    else if tasks.any (fun u => u.id = p) then some p
    else none

/-- `buildTaskTree`'s `childrenByParent.get(pid)`: tasks whose resolved
parent is `pid`, in input order (the JS builds the lists by pushing while
scanning the flat list). -/
def childrenOf (tasks : List Task) (pid : Option Nat) : List Task :=
  tasks.filter (fun t => getParentId tasks t == pid)

/-- Ids of the children of task `p`. -/
def kidsIds (tasks : List Task) (p : Nat) : List Nat :=
  (childrenOf tasks (some p)).map (·.id)

/-- `tasksById.get(tid)` (first match; under unique ids, the match). -/
def taskOf (tasks : List Task) (tid : Nat) : Option Task :=
  tasks.find? (fun t => t.id == tid)

/-- Live `task.completed` read through the id. -/
def completedOf (tasks : List Task) (tid : Nat) : Bool :=
  match taskOf tasks tid with
  | some t => t.completed
  | none => false

/-- Live `task.completedAt` read through the id. -/
def completedAtOf (tasks : List Task) (tid : Nat) : Option String :=
  match taskOf tasks tid with
  | some t => t.completedAt
  | none => none

/-- In-place mutation of the object with id `tid` (object identity =
id, per the unique-id invariant). -/
def updateById (tasks : List Task) (tid : Nat) (f : Task → Task) : List Task :=
  tasks.map (fun t => if t.id = tid then f t else t)

/-- `setTaskCompletion`: sets `completed` and stamps or clears
`completedAt`. -/
def setTaskCompletion (t : Task) (completed : Bool) (ts : String) : Task :=
  { t with completed := completed, completedAt := if completed then some ts else none }

/-- The structural part of a task (what tree traversals depend on). -/
def shape (t : Task) : Nat × Option Nat := (t.id, t.parentId)

def shapes (tasks : List Task) : List (Nat × Option Nat) := tasks.map shape

theorem shapes_updateById (tasks : List Task) (tid : Nat) (f : Task → Task)
    (hf : ∀ t, shape (f t) = shape t) : shapes (updateById tasks tid f) = shapes tasks := by
  simp only [shapes, updateById, List.map_map]
  apply List.map_congr_left
  intro t _
  by_cases h : t.id = tid <;> simp [h, hf]

theorem shape_setTaskCompletion (t : Task) (c : Bool) (ts : String) :
    shape (setTaskCompletion t c ts) = shape t := rfl

/-- `getParentId` only looks at shapes. -/
theorem getParentId_shape_eq (tasks tasks' : List Task) (t t' : Task)
    (h : shapes tasks' = shapes tasks) (ht : shape t' = shape t) :
    getParentId tasks' t' = getParentId tasks t := by
  have hid : t'.id = t.id := congrArg Prod.fst ht
  have hpid : t'.parentId = t.parentId := congrArg Prod.snd ht
  have hids : tasks'.map (·.id) = tasks.map (·.id) := by
    have h1 := congrArg (List.map Prod.fst) h
    simpa [shapes, shape, List.map_map, Function.comp] using h1
  have hany : ∀ p : Nat, (tasks'.any (fun u => decide (u.id = p)))
      = (tasks.any (fun u => decide (u.id = p))) := by
    intro p
    have e : ∀ l : List Task, l.any (fun u => decide (u.id = p))
        = (l.map (·.id)).any (fun i => decide (i = p)) := by
      intro l
      induction l with
      | nil => rfl
      | cons hd tl ih => simp [ih]
    rw [e tasks', e tasks, hids]
  unfold getParentId
  rw [hpid, hid]
  cases t.parentId with
  | none => rfl
  | some p =>
    dsimp only
    rw [hany p]

/-!
### Generic visited-set stack loop

`collectDescendants`, `getSubtreeTaskIds` and `getCompositeProgress` in
`markdown.js` are all `while (stack.length > 0)` loops carrying a visited
set.  They are embedded as one fueled loop; the JS stack pops from the
end, so the model list's head is the JS stack's top (pushed child lists
are pre-reversed accordingly at the call sites).  `none` models fuel
exhaustion; the termination theorems show it never occurs at the fuel
each wrapper supplies. -/

def genLoop (key : α → Nat) (next : α → List α) (upd : β → α → β) :
    Nat → List α → List Nat → β → Option (List Nat × β)
  | _, [], seen, acc => some (seen, acc)
  | 0, _ :: _, _, _ => none
  | fuel + 1, t :: rest, seen, acc =>
    if key t ∈ seen then genLoop key next upd fuel rest seen acc
    else genLoop key next upd fuel (next t ++ rest) (key t :: seen) (upd acc t)

theorem genLoop_isSome {α β : Type} (key : α → Nat) (next : α → List α) (upd : β → α → β)
    (K : Finset Nat) (T : Nat)
    (hnextK : ∀ t a, a ∈ next t → key a ∈ K)
    (hnextT : ∀ t, (next t).length ≤ T) :
    ∀ fuel stack seen acc, (∀ t ∈ stack, key t ∈ K) →
      stack.length + (T + 1) * (K \ seen.toFinset).card < fuel →
      (genLoop key next upd fuel stack seen acc).isSome := by
  intro fuel
  induction fuel with
  | zero => intro stack seen acc _ hlt; omega
  | succ fuel ih =>
    intro stack seen acc hK hlt
    match stack with
    | [] => simp [genLoop]
    | t :: rest =>
      rw [genLoop]
      by_cases hmem : key t ∈ seen
      · rw [if_pos hmem]
        apply ih rest seen acc (fun x hx => hK x (List.mem_cons_of_mem _ hx))
        simp only [List.length_cons] at hlt
        omega
      · rw [if_neg hmem]
        apply ih
        · intro x hx
          rcases List.mem_append.mp hx with hx1 | hx2
          · exact hnextK t x hx1
          · exact hK x (List.mem_cons_of_mem _ hx2)
        · have hkK : key t ∈ K \ seen.toFinset := by
            rw [Finset.mem_sdiff, List.mem_toFinset]
            exact ⟨hK t (List.mem_cons_self _ _), hmem⟩
          have hcard : (K \ (key t :: seen).toFinset).card
              = (K \ seen.toFinset).card - 1 := by
            have : K \ (key t :: seen).toFinset = (K \ seen.toFinset).erase (key t) := by
              ext x
              simp only [Finset.mem_sdiff, List.mem_toFinset, List.mem_cons,
                Finset.mem_erase]
              tauto
            rw [this, Finset.card_erase_of_mem hkK]
          have hpos : 0 < (K \ seen.toFinset).card := Finset.card_pos.mpr ⟨_, hkK⟩
          have hlen : (next t ++ rest).length ≤ T + rest.length := by
            rw [List.length_append]
            have := hnextT t
            omega
          simp only [List.length_cons] at hlt
          rw [hcard]
          obtain ⟨c, hc⟩ : ∃ c, (K \ seen.toFinset).card = c + 1 :=
            ⟨(K \ seen.toFinset).card - 1, by omega⟩
          rw [hc]
          rw [hc] at hlt
          simp only [Nat.add_sub_cancel]
          have hmul : (T + 1) * (c + 1) = (T + 1) * c + (T + 1) := by ring
          omega

/-! ### Concrete traversals of `markdown.js` -/

def idsFinset (tasks : List Task) : Finset Nat := (idsOf tasks).toFinset

theorem mem_of_mem_childrenOf {tasks : List Task} {pid : Option Nat} {t : Task}
    (h : t ∈ childrenOf tasks pid) : t ∈ tasks := (List.mem_filter.mp h).1

theorem length_childrenOf_le (tasks : List Task) (pid : Option Nat) :
    (childrenOf tasks pid).length ≤ tasks.length := List.length_filter_le _ _

theorem id_mem_idsFinset {tasks : List Task} {t : Task} (h : t ∈ tasks) :
    t.id ∈ idsFinset tasks := by
  rw [idsFinset, List.mem_toFinset, idsOf]
  exact List.mem_map_of_mem _ h

theorem optionMap_isSome {α β : Type} (o : Option α) (f : α → β) :
    (o.map f).isSome = o.isSome := by cases o <;> rfl

/-- `collectDescendants(taskId, childrenByParent)`: every task reachable
from `taskId` through child links, cycle-guarded.  The JS pops from the
array's end, so pushed child lists are reversed into the head-is-top
model stack.  `none` is fuel exhaustion (never reached, see
`collectDescendants_isSome`). -/
def collectDescendants (tasks : List Task) (tid : Nat) : Option (List Task) :=
  let stack0 := (childrenOf tasks (some tid)).reverse
  let fuel := stack0.length + (tasks.length + 1) * (idsFinset tasks).card + 1
  (genLoop (·.id) (fun t => (childrenOf tasks (some t.id)).reverse)
    (fun acc t => acc ++ [t]) fuel stack0 [tid] []).map (·.2)

theorem collectDescendants_isSome (tasks : List Task) (tid : Nat) :
    (collectDescendants tasks tid).isSome := by
  rw [collectDescendants, optionMap_isSome]
  apply genLoop_isSome _ _ _ (idsFinset tasks) tasks.length
  · intro t a ha
    exact id_mem_idsFinset (mem_of_mem_childrenOf (List.mem_reverse.mp ha))
  · intro t
    rw [List.length_reverse]
    exact length_childrenOf_le _ _
  · intro t ht
    exact id_mem_idsFinset (mem_of_mem_childrenOf (List.mem_reverse.mp ht))
  · have hmono : ((idsFinset tasks) \ ([tid] : List Nat).toFinset).card
        ≤ (idsFinset tasks).card := Finset.card_le_card (Finset.sdiff_subset)
    have h2 : (tasks.length + 1) * ((idsFinset tasks) \ ([tid] : List Nat).toFinset).card
        ≤ (tasks.length + 1) * (idsFinset tasks).card :=
      Nat.mul_le_mul_left _ hmono
    omega

/-- `getSubtreeTaskIds(taskId, childrenByParent)`: pre-order ids of the
subtree, cycle-guarded (used by `deleteTask` and `addSubtask`). -/
def getSubtreeTaskIds (tasks : List Task) (tid : Nat) : Option (List Nat) :=
  let fuel := 1 + (tasks.length + 1) * (insert tid (idsFinset tasks)).card + 1
  (genLoop (fun i => i) (fun i => kidsIds tasks i)
    (fun acc i => acc ++ [i]) fuel [tid] [] []).map (·.2)

theorem mem_idsFinset_of_mem_kidsIds {tasks : List Task} {p a : Nat}
    (h : a ∈ kidsIds tasks p) : a ∈ idsFinset tasks := by
  rw [kidsIds] at h
  obtain ⟨t, ht, rfl⟩ := List.mem_map.mp h
  exact id_mem_idsFinset (mem_of_mem_childrenOf ht)

theorem length_kidsIds_le (tasks : List Task) (p : Nat) :
    (kidsIds tasks p).length ≤ tasks.length := by
  rw [kidsIds, List.length_map]
  exact length_childrenOf_le _ _

theorem getSubtreeTaskIds_isSome (tasks : List Task) (tid : Nat) :
    (getSubtreeTaskIds tasks tid).isSome := by
  rw [getSubtreeTaskIds, optionMap_isSome]
  apply genLoop_isSome _ _ _ (insert tid (idsFinset tasks)) tasks.length
  · intro t a ha
    exact Finset.mem_insert_of_mem (mem_idsFinset_of_mem_kidsIds ha)
  · intro t
    exact length_kidsIds_le _ _
  · intro t ht
    rw [List.mem_singleton] at ht
    rw [ht]
    exact Finset.mem_insert_self _ _
  · have hmono : ((insert tid (idsFinset tasks)) \ ([] : List Nat).toFinset).card
        ≤ (insert tid (idsFinset tasks)).card := Finset.card_le_card (Finset.sdiff_subset)
    have h2 : (tasks.length + 1) * ((insert tid (idsFinset tasks)) \ ([] : List Nat).toFinset).card
        ≤ (tasks.length + 1) * (insert tid (idsFinset tasks)).card :=
      Nat.mul_le_mul_left _ hmono
    simp only [List.length_singleton]
    omega

/-- `getCompositeProgress(taskId, childrenByParent)`: counts leaf
descendants (`done`, `total`); when no leaf is found, falls back to the
direct children. -/
def getCompositeProgress (tasks : List Task) (tid : Nat) : Option (Nat × Nat) :=
  let stack0 := (childrenOf tasks (some tid)).reverse
  let fuel := stack0.length + (tasks.length + 1) * (idsFinset tasks).card + 1
  (genLoop (·.id)
    (fun t => if childrenOf tasks (some t.id) = [] then []
      else (childrenOf tasks (some t.id)).reverse)
    (fun acc t => if childrenOf tasks (some t.id) = []
      then (acc.1 + (if t.completed then 1 else 0), acc.2 + 1) else acc)
    fuel stack0 [tid] (0, 0)).map (fun r =>
      if r.2.2 = 0 then
        ((childrenOf tasks (some tid)).countP (·.completed),
         (childrenOf tasks (some tid)).length)
      else r.2)

theorem getCompositeProgress_isSome (tasks : List Task) (tid : Nat) :
    (getCompositeProgress tasks tid).isSome := by
  rw [getCompositeProgress, optionMap_isSome]
  apply genLoop_isSome _ _ _ (idsFinset tasks) tasks.length
  · intro t a ha
    by_cases h : childrenOf tasks (some t.id) = []
    · rw [if_pos h] at ha
      exact absurd ha (List.not_mem_nil _)
    · rw [if_neg h] at ha
      exact id_mem_idsFinset (mem_of_mem_childrenOf (List.mem_reverse.mp ha))
  · intro t
    by_cases h : childrenOf tasks (some t.id) = []
    · simp [h]
    · rw [if_neg h, List.length_reverse]
      exact length_childrenOf_le _ _
  · intro t ht
    exact id_mem_idsFinset (mem_of_mem_childrenOf (List.mem_reverse.mp ht))
  · have hmono : ((idsFinset tasks) \ ([tid] : List Nat).toFinset).card
        ≤ (idsFinset tasks).card := Finset.card_le_card (Finset.sdiff_subset)
    have h2 : (tasks.length + 1) * ((idsFinset tasks) \ ([tid] : List Nat).toFinset).card
        ≤ (tasks.length + 1) * (idsFinset tasks).card :=
      Nat.mul_le_mul_left _ hmono
    omega

/-!
### Shape stability

During a completion sync only `completed`/`completedAt` change, so the
tree structure (`getParentId`, children lists, ids) computed from the
live list equals the one `buildTaskTree` captured at entry.  The lemmas
below make that precise. -/

theorem idsOf_eq_of_shapes_eq {tasks tasks' : List Task}
    (h : shapes tasks' = shapes tasks) : idsOf tasks' = idsOf tasks := by
  have h1 := congrArg (List.map Prod.fst) h
  simpa [shapes, shape, idsOf, List.map_map, Function.comp] using h1

/-- `getParentId` as a function of the id list and the task's shape. -/
def resolvedParent (ids : List Nat) (sh : Nat × Option Nat) : Option Nat :=
  match sh.2 with
  | none => none
  | some p =>
    if p = 0 then none
    else if p = sh.1 then none
    else if p ∈ ids then some p
    else none

theorem any_id_eq_mem_idsOf (tasks : List Task) (p : Nat) :
    (tasks.any (fun u => u.id = p)) = decide (p ∈ idsOf tasks) := by
  apply Bool.eq_iff_iff.mpr
  rw [decide_eq_true_eq]
  simp only [List.any_eq_true, decide_eq_true_eq, idsOf, List.mem_map]

theorem getParentId_eq_resolved (tasks : List Task) (t : Task) :
    getParentId tasks t = resolvedParent (idsOf tasks) (shape t) := by
  unfold getParentId resolvedParent shape
  cases t.parentId with
  | none => rfl
  | some p =>
    dsimp only
    rw [any_id_eq_mem_idsOf]
    by_cases h0 : p = 0
    · simp [h0]
    · by_cases hself : p = t.id
      · simp [h0, hself]
      · by_cases hmem : p ∈ idsOf tasks <;> simp [h0, hself, hmem]

theorem filter_map_comm {α β : Type} (f : α → β) (q : β → Bool) (l : List α) :
    (l.map f).filter q = (l.filter (fun a => q (f a))).map f := by
  induction l with
  | nil => rfl
  | cons hd tl ih =>
    by_cases h : q (f hd) <;> simp [h, ih]

/-- Children ids of a parent key (also used for the root list). -/
def childIdsOf (tasks : List Task) (pid : Option Nat) : List Nat :=
  (childrenOf tasks pid).map (·.id)

theorem kidsIds_eq_childIdsOf (tasks : List Task) (p : Nat) :
    kidsIds tasks p = childIdsOf tasks (some p) := rfl

theorem childIdsOf_eq_shapes (tasks : List Task) (pid : Option Nat) :
    childIdsOf tasks pid
      = ((shapes tasks).filter
          (fun sh => resolvedParent (idsOf tasks) sh == pid)).map Prod.fst := by
  rw [childIdsOf, childrenOf, shapes,
    filter_map_comm shape (fun sh => resolvedParent (idsOf tasks) sh == pid) tasks,
    List.map_map]
  have : ∀ t : Task, (getParentId tasks t == pid)
      = (resolvedParent (idsOf tasks) (shape t) == pid) := by
    intro t
    rw [getParentId_eq_resolved]
  rw [List.filter_congr (fun t _ => this t)]
  rfl

theorem childIdsOf_shape_eq {tasks tasks' : List Task}
    (h : shapes tasks' = shapes tasks) (pid : Option Nat) :
    childIdsOf tasks' pid = childIdsOf tasks pid := by
  rw [childIdsOf_eq_shapes, childIdsOf_eq_shapes, h, idsOf_eq_of_shapes_eq h]

theorem taskOf_isSome_iff (tasks : List Task) (tid : Nat) :
    (taskOf tasks tid).isSome ↔ tid ∈ idsOf tasks := by
  rw [taskOf, List.find?_isSome, idsOf]
  constructor
  · rintro ⟨t, ht, hp⟩
    simp only [beq_iff_eq] at hp
    exact hp ▸ List.mem_map_of_mem _ ht
  · intro hm
    obtain ⟨t, ht, rfl⟩ := List.mem_map.mp hm
    exact ⟨t, ht, by simp⟩

/-- One erase step on the unvisited-ids measure. -/
theorem card_sdiff_cons_lt (K : Finset Nat) (seen : List Nat) (k : Nat)
    (hk : k ∈ K) (hns : k ∉ seen) :
    (K \ (k :: seen).toFinset).card < (K \ seen.toFinset).card := by
  have hkK : k ∈ K \ seen.toFinset := by
    rw [Finset.mem_sdiff, List.mem_toFinset]
    exact ⟨hk, hns⟩
  have heq : K \ (k :: seen).toFinset = (K \ seen.toFinset).erase k := by
    ext x
    simp only [Finset.mem_sdiff, List.mem_toFinset, List.mem_cons, Finset.mem_erase]
    tauto
  rw [heq]
  exact Finset.card_erase_lt_of_mem hkK

/-!
### `syncAncestorCompletion` (upward propagation)

A fueled embedding of the `while (parentId && !seen.has(parentId))` loop;
each iteration recomputes the parent's `completed` as the AND of its
direct children's live values, clearing a stale `completedAt` when the
parent stays incomplete. -/

def syncAncestorF (ts : String) : Nat → List Task → List Nat → Option Nat → Option (List Task)
  | _, tasks, _, none => some tasks
  | 0, _, _, some _ => none
  | fuel + 1, tasks, seen, some pid =>
    if pid ∈ seen then some tasks
    else
      match taskOf tasks pid with
      | none => some tasks
      | some parent =>
        let children := childrenOf tasks (some pid)
        if children = [] then some tasks
        else
          let shouldBe := children.all (·.completed)
          let tasks2 :=
            if parent.completed ≠ shouldBe then
              updateById tasks pid (fun t => setTaskCompletion t shouldBe ts)
            else if shouldBe = false then
              updateById tasks pid (fun t => { t with completedAt := none })
            else tasks
          syncAncestorF ts fuel tasks2 (pid :: seen) (getParentId tasks2 parent)

theorem shapes_syncAncestor_step (tasks : List Task) (pid : Nat) (f : Task → Task)
    (hf : ∀ t, shape (f t) = shape t) :
    shapes (updateById tasks pid f) = shapes tasks := shapes_updateById _ _ _ hf

theorem syncAncestorF_isSome (ts : String) :
    ∀ fuel tasks seen pid,
      (∀ p, pid = some p → p ∈ idsFinset tasks) →
      (idsFinset tasks \ seen.toFinset).card < fuel →
      (syncAncestorF ts fuel tasks seen pid).isSome := by
  intro fuel
  induction fuel with
  | zero =>
    intro tasks seen pid hp hlt
    cases pid with
    | none => simp [syncAncestorF]
    | some p => omega
  | succ fuel ih =>
    intro tasks seen pid hp hlt
    cases pid with
    | none => simp [syncAncestorF]
    | some p =>
      rw [syncAncestorF]
      by_cases hseen : p ∈ seen
      · simp [hseen]
      · rw [if_neg hseen]
        cases hta : taskOf tasks p with
        | none => simp
        | some parent =>
          dsimp only
          by_cases hch : childrenOf tasks (some p) = []
          · rw [if_pos hch]
            simp
          · rw [if_neg hch]
            set tasks2 :=
              if parent.completed ≠ (childrenOf tasks (some p)).all (·.completed) then
                updateById tasks p (fun t => setTaskCompletion t ((childrenOf tasks (some p)).all (·.completed)) ts)
              else if ((childrenOf tasks (some p)).all (·.completed)) = false then
                updateById tasks p (fun t => { t with completedAt := none })
              else tasks with htasks2
            have hsh : shapes tasks2 = shapes tasks := by
              rw [htasks2]
              split
              · exact shapes_updateById _ _ _ (fun t => rfl)
              · split
                · exact shapes_updateById _ _ _ (fun t => rfl)
                · rfl
            have hids : idsFinset tasks2 = idsFinset tasks := by
              rw [idsFinset, idsFinset, idsOf_eq_of_shapes_eq hsh]
            apply ih
            · intro q hq
              rw [hids]
              have : (taskOf tasks p).isSome := by rw [hta]; rfl
              rcases hgq : getParentId tasks2 parent with _ | q2
              · rw [hgq] at hq
                exact absurd hq (by simp)
              · rw [hgq] at hq
                injection hq with hq2
                subst hq2
                rw [getParentId] at hgq
                rcases hpar : parent.parentId with _ | pp
                · rw [hpar] at hgq
                  exact absurd hgq (by simp)
                · rw [hpar] at hgq
                  dsimp only at hgq
                  by_cases h0 : pp = 0
                  · rw [if_pos h0] at hgq
                    exact absurd hgq (by simp)
                  · rw [if_neg h0] at hgq
                    by_cases hself : pp = parent.id
                    · rw [if_pos hself] at hgq
                      exact absurd hgq (by simp)
                    · rw [if_neg hself] at hgq
                      by_cases hany : tasks2.any (fun u => u.id = pp)
                      · rw [if_pos hany] at hgq
                        injection hgq with hgq2
                        subst hgq2
                        rw [any_id_eq_mem_idsOf] at hany
                        rw [idsFinset, List.mem_toFinset]
                        rw [← idsOf_eq_of_shapes_eq hsh]
                        exact of_decide_eq_true hany
                      · rw [if_neg hany] at hgq
                        exact absurd hgq (by simp)
            · rw [hids]
              have hpK : p ∈ idsFinset tasks := hp p rfl
              exact Nat.lt_of_lt_of_le (card_sdiff_cons_lt _ _ _ hpK hseen) (by omega)

/-!
### `syncCompositeCompletion` (global resync)

The recursive `walk` closure, fueled.  `visited` and `changed` mirror the
closure's captured variables; the structure (children lists) is read from
the live list, which is legitimate because only value fields mutate
(shape stability below). -/

structure SyncSt where
  tasks : List Task
  visited : List Nat
  changed : Bool
  deriving Repr, DecidableEq

def walkF (ts : String) : Nat → SyncSt → Nat → Option SyncSt
  | 0, _, _ => none
  | fuel + 1, st, tid =>
    if tid ∈ st.visited then some st
    else
      match taskOf st.tasks tid with
      | none => some st
      | some _ =>
        let st1 : SyncSt := ⟨st.tasks, tid :: st.visited, st.changed⟩
        match (kidsIds st1.tasks tid).foldlM (walkF ts fuel) st1 with
        | none => none
        | some st2 =>
          let kids := kidsIds st2.tasks tid
          if kids = [] then some st2
          else
            let shouldBe := kids.all (completedOf st2.tasks)
            if completedOf st2.tasks tid ≠ shouldBe then
              some ⟨updateById st2.tasks tid (fun t => setTaskCompletion t shouldBe ts),
                    st2.visited, true⟩
            else if shouldBe = false then
              some ⟨updateById st2.tasks tid (fun t => { t with completedAt := none }),
                    st2.visited,
                    st2.changed || (completedAtOf st2.tasks tid ≠ none)⟩
            else some st2

/-- `syncCompositeCompletion(tasks)`: walks roots, then every task, and
reports whether anything changed.  Fuel `tasks.length + 1` is always
sufficient (`syncCompositeCompletion_isSome`). -/
def syncCompositeCompletion (ts : String) (tasks : List Task) :
    Option (List Task × Bool) :=
  let fuel := tasks.length + 1
  let st0 : SyncSt := ⟨tasks, [], false⟩
  match (childIdsOf tasks none).foldlM (walkF ts fuel) st0 with
  | none => none
  | some st1 =>
    match (idsOf tasks).foldlM (walkF ts fuel) st1 with
    | none => none
    | some st2 => some (st2.tasks, st2.changed)

/-- Chaining a reflexive-transitive invariant through `foldlM`. -/
theorem foldlM_chain {σ α : Type} {R : σ → σ → Prop}
    (hrefl : ∀ s, R s s) (htrans : ∀ a b c, R a b → R b c → R a c)
    {f : σ → α → Option σ} :
    ∀ (l : List α) (s s' : σ), (∀ x ∈ l, ∀ a b, f a x = some b → R a b) →
      l.foldlM f s = some s' → R s s' := by
  intro l
  induction l with
  | nil =>
    intro s s' _ h
    simp only [List.foldlM_nil] at h
    injection h with h
    exact h ▸ hrefl s
  | cons hd tl ih =>
    intro s s' hf h
    simp only [List.foldlM_cons] at h
    cases hstep : f s hd with
    | none => rw [hstep] at h; exact absurd h (by simp)
    | some smid =>
      rw [hstep] at h
      simp only [Option.bind_eq_bind, Option.some_bind] at h
      exact htrans _ _ _ (hf hd (List.mem_cons_self _ _) s smid hstep)
        (ih smid s' (fun x hx => hf x (List.mem_cons_of_mem _ hx)) h)

/-- The walk only grows the visited set and preserves shapes. -/
def walkGrows (a b : SyncSt) : Prop :=
  (∀ v ∈ a.visited, v ∈ b.visited) ∧ shapes b.tasks = shapes a.tasks

theorem walkGrows_refl (s : SyncSt) : walkGrows s s := ⟨fun _ h => h, rfl⟩

theorem walkGrows_trans (a b c : SyncSt) (h1 : walkGrows a b) (h2 : walkGrows b c) :
    walkGrows a c := ⟨fun v hv => h2.1 v (h1.1 v hv), h2.2.trans h1.2⟩

theorem walkF_grows (ts : String) :
    ∀ fuel st tid st', walkF ts fuel st tid = some st' → walkGrows st st' := by
  intro fuel
  induction fuel with
  | zero => intro st tid st' h; exact absurd h (by simp [walkF])
  | succ fuel ih =>
    intro st tid st' h
    rw [walkF] at h
    by_cases hvis : tid ∈ st.visited
    · rw [if_pos hvis] at h
      injection h with h
      exact h ▸ walkGrows_refl st
    · rw [if_neg hvis] at h
      cases hta : taskOf st.tasks tid with
      | none =>
        rw [hta] at h
        injection h with h
        exact h ▸ walkGrows_refl st
      | some t0 =>
        rw [hta] at h
        dsimp only at h
        cases hfold : (kidsIds st.tasks tid).foldlM (walkF ts fuel)
            ⟨st.tasks, tid :: st.visited, st.changed⟩ with
        | none => rw [hfold] at h; exact absurd h (by simp)
        | some st2 =>
          rw [hfold] at h
          have hg2 : walkGrows ⟨st.tasks, tid :: st.visited, st.changed⟩ st2 :=
            foldlM_chain walkGrows_refl walkGrows_trans _ _ _
              (fun x _ a b hab => ih a x b hab) hfold
          have hg1 : walkGrows st st2 :=
            walkGrows_trans st ⟨st.tasks, tid :: st.visited, st.changed⟩ st2
              ⟨fun v hv => List.mem_cons_of_mem _ hv, rfl⟩ hg2
          dsimp only at h
          by_cases hkids : kidsIds st2.tasks tid = []
          · rw [if_pos hkids] at h
            injection h with h
            exact h ▸ hg1
          · rw [if_neg hkids] at h
            by_cases hneq : completedOf st2.tasks tid
                ≠ (kidsIds st2.tasks tid).all (completedOf st2.tasks)
            · rw [if_pos hneq] at h
              injection h with h
              subst h
              refine walkGrows_trans _ _ _ hg1 ⟨fun v hv => hv, ?_⟩
              exact shapes_updateById _ _ _ (fun t => rfl)
            · rw [if_neg hneq] at h
              by_cases hsb : (kidsIds st2.tasks tid).all (completedOf st2.tasks) = false
              · rw [if_pos hsb] at h
                injection h with h
                subst h
                refine walkGrows_trans _ _ _ hg1 ⟨fun v hv => hv, ?_⟩
                exact shapes_updateById _ _ _ (fun t => rfl)
              · rw [if_neg hsb] at h
                injection h with h
                exact h ▸ hg1

theorem walkF_isSome (ts : String) :
    ∀ fuel st tid, (idsFinset st.tasks \ st.visited.toFinset).card < fuel →
      (walkF ts fuel st tid).isSome := by
  intro fuel
  induction fuel with
  | zero => intro st tid h; omega
  | succ fuel ih =>
    intro st tid hcard
    rw [walkF]
    by_cases hvis : tid ∈ st.visited
    · simp [hvis]
    · rw [if_neg hvis]
      cases hta : taskOf st.tasks tid with
      | none => simp
      | some t0 =>
        dsimp only
        have htid : tid ∈ idsFinset st.tasks := by
          rw [idsFinset, List.mem_toFinset]
          exact (taskOf_isSome_iff st.tasks tid).mp (by rw [hta]; rfl)
        have hlt2 : (idsFinset st.tasks \ (tid :: st.visited).toFinset).card < fuel := by
          have := card_sdiff_cons_lt (idsFinset st.tasks) st.visited tid htid hvis
          omega
        have hfold : ∀ (l : List Nat) (s : SyncSt),
            shapes s.tasks = shapes st.tasks →
            (∀ v ∈ (tid :: st.visited), v ∈ s.visited) →
            (l.foldlM (walkF ts fuel) s).isSome := by
          intro l
          induction l with
          | nil => intro s _ _; simp [List.foldlM_nil]
          | cons x xs ihl =>
            intro s hsh hsub
            have hstep : (walkF ts fuel s x).isSome := by
              apply ih
              have hids : idsFinset s.tasks = idsFinset st.tasks := by
                rw [idsFinset, idsFinset, idsOf_eq_of_shapes_eq hsh]
              rw [hids]
              have hsubF : (tid :: st.visited).toFinset ⊆ s.visited.toFinset := by
                intro v hv
                rw [List.mem_toFinset] at hv ⊢
                exact hsub v hv
              have hmono : (idsFinset st.tasks \ s.visited.toFinset).card
                  ≤ (idsFinset st.tasks \ (tid :: st.visited).toFinset).card := by
                apply Finset.card_le_card
                exact Finset.sdiff_subset_sdiff (Finset.Subset.refl _) hsubF
              omega
            obtain ⟨s2, hs2⟩ := Option.isSome_iff_exists.mp hstep
            have hg := walkF_grows ts fuel s x s2 hs2
            simp only [List.foldlM_cons, hs2, Option.bind_eq_bind, Option.some_bind]
            exact ihl s2 (hg.2.trans hsh) (fun v hv => hg.1 v (hsub v hv))
        have hfold2 := hfold (kidsIds st.tasks tid)
          ⟨st.tasks, tid :: st.visited, st.changed⟩ rfl (fun v hv => hv)
        obtain ⟨st2, hst2⟩ := Option.isSome_iff_exists.mp hfold2
        rw [hst2]
        dsimp only
        by_cases hkids : kidsIds st2.tasks tid = []
        · simp [hkids]
        · rw [if_neg hkids]
          by_cases hneq : completedOf st2.tasks tid
              ≠ (kidsIds st2.tasks tid).all (completedOf st2.tasks)
          · simp [hneq]
          · rw [if_neg hneq]
            by_cases hsb : (kidsIds st2.tasks tid).all (completedOf st2.tasks) = false
            · simp [hsb]
            · simp [hsb]

theorem syncCompositeCompletion_isSome (ts : String) (tasks : List Task) :
    (syncCompositeCompletion ts tasks).isSome := by
  rw [syncCompositeCompletion]
  have hfold : ∀ (l : List Nat) (s : SyncSt), shapes s.tasks = shapes tasks →
      (l.foldlM (walkF ts (tasks.length + 1)) s).isSome := by
    intro l
    induction l with
    | nil => intro s _; simp [List.foldlM_nil]
    | cons x xs ihl =>
      intro s hsh
      have hstep : (walkF ts (tasks.length + 1) s x).isSome := by
        apply walkF_isSome
        have hids : idsFinset s.tasks = idsFinset tasks := by
          rw [idsFinset, idsFinset, idsOf_eq_of_shapes_eq hsh]
        rw [hids]
        have h1 : (idsFinset tasks \ s.visited.toFinset).card ≤ (idsFinset tasks).card :=
          Finset.card_le_card (Finset.sdiff_subset)
        have h2 : (idsFinset tasks).card ≤ tasks.length := by
          calc (idsFinset tasks).card ≤ (idsOf tasks).length := List.toFinset_card_le _
            _ = tasks.length := List.length_map _ _
        omega
      obtain ⟨s2, hs2⟩ := Option.isSome_iff_exists.mp hstep
      have hg := walkF_grows ts (tasks.length + 1) s x s2 hs2
      simp only [List.foldlM_cons, hs2, Option.bind_eq_bind, Option.some_bind]
      exact ihl s2 (hg.2.trans hsh)
  have h1 := hfold (childIdsOf tasks none) ⟨tasks, [], false⟩ rfl
  obtain ⟨st1, hst1⟩ := Option.isSome_iff_exists.mp h1
  rw [hst1]
  dsimp only
  have hg1 := foldlM_chain walkGrows_refl walkGrows_trans _ _ _
    (fun x _ a b hab => walkF_grows ts (tasks.length + 1) a x b hab) hst1
  have h2 := hfold (idsOf tasks) st1 hg1.2
  obtain ⟨st2, hst2⟩ := Option.isSome_iff_exists.mp h2
  rw [hst2]
  rfl

/-!
### Facts about `taskOf` and `updateById` -/

theorem taskOf_updateById_self (tasks : List Task) (tid : Nat) (f : Task → Task)
    (hid : ∀ t, (f t).id = t.id) :
    taskOf (updateById tasks tid f) tid = (taskOf tasks tid).map f := by
  induction tasks with
  | nil => rfl
  | cons hd tl ih =>
    unfold updateById taskOf
    simp only [List.map_cons]
    by_cases h : hd.id = tid
    · rw [if_pos h,
        List.find?_cons_of_pos _ (by simp [hid, h]),
        List.find?_cons_of_pos _ (by simp [h])]
      rfl
    · rw [if_neg h,
        List.find?_cons_of_neg _ (by simp [h]),
        List.find?_cons_of_neg _ (by simp [h])]
      exact ih

theorem taskOf_updateById_other (tasks : List Task) (tid v : Nat) (f : Task → Task)
    (hid : ∀ t, (f t).id = t.id) (hne : v ≠ tid) :
    taskOf (updateById tasks tid f) v = taskOf tasks v := by
  induction tasks with
  | nil => rfl
  | cons hd tl ih =>
    unfold updateById taskOf
    simp only [List.map_cons]
    by_cases h : hd.id = tid
    · rw [if_pos h,
        List.find?_cons_of_neg _ (by simp [hid, h]; exact fun hc => hne hc.symm),
        List.find?_cons_of_neg _ (by simp [h]; exact fun hc => hne hc.symm)]
      exact ih
    · rw [if_neg h]
      by_cases h2 : hd.id = v
      · rw [List.find?_cons_of_pos _ (by simp [h2]),
          List.find?_cons_of_pos _ (by simp [h2])]
      · rw [List.find?_cons_of_neg _ (by simp [h2]),
          List.find?_cons_of_neg _ (by simp [h2])]
        exact ih

theorem updateById_eq_self (tasks : List Task) (tid : Nat) (f : Task → Task)
    (h : ∀ t ∈ tasks, t.id = tid → f t = t) : updateById tasks tid f = tasks := by
  unfold updateById
  have : ∀ t ∈ tasks, (if t.id = tid then f t else t) = t := by
    intro t ht
    by_cases he : t.id = tid
    · rw [if_pos he]
      exact h t ht he
    · rw [if_neg he]
  calc tasks.map (fun t => if t.id = tid then f t else t)
      = tasks.map (fun t => t) := List.map_congr_left this
    _ = tasks := List.map_id _

theorem taskOf_eq_of_nodup {tasks : List Task} {t : Task}
    (hnodup : (idsOf tasks).Nodup) (ht : t ∈ tasks) : taskOf tasks t.id = some t := by
  induction tasks with
  | nil => exact absurd ht (List.not_mem_nil t)
  | cons hd tl ih =>
    have hnd : (idsOf tl).Nodup ∧ hd.id ∉ idsOf tl := by
      simp only [idsOf, List.map_cons, List.nodup_cons] at hnodup
      exact ⟨hnodup.2, hnodup.1⟩
    rcases List.mem_cons.mp ht with rfl | htl
    · unfold taskOf
      rw [List.find?_cons_of_pos _ (by simp)]
    · have hne : hd.id ≠ t.id := by
        intro hc
        exact hnd.2 (hc ▸ List.mem_map_of_mem _ htl)
      unfold taskOf
      rw [List.find?_cons_of_neg _ (by simp [hne])]
      exact ih hnd.1 htl

theorem mem_idsOf_of_mem_kidsIds {tasks : List Task} {p k : Nat}
    (h : k ∈ kidsIds tasks p) : k ∈ idsOf tasks := by
  rw [kidsIds] at h
  obtain ⟨t, ht, rfl⟩ := List.mem_map.mp h
  exact List.mem_map_of_mem _ (mem_of_mem_childrenOf ht)

theorem kidsIds_shape_eq {tasks tasks' : List Task}
    (h : shapes tasks' = shapes tasks) (p : Nat) : kidsIds tasks' p = kidsIds tasks p := by
  rw [kidsIds_eq_childIdsOf, kidsIds_eq_childIdsOf]
  exact childIdsOf_shape_eq h _

theorem completedOf_congr {t1 t2 : List Task} {v : Nat}
    (h : taskOf t1 v = taskOf t2 v) : completedOf t1 v = completedOf t2 v := by
  unfold completedOf
  rw [h]

theorem completedAtOf_congr {t1 t2 : List Task} {v : Nat}
    (h : taskOf t1 v = taskOf t2 v) : completedAtOf t1 v = completedAtOf t2 v := by
  unfold completedAtOf
  rw [h]

theorem list_all_congr {l : List Nat} {f g : Nat → Bool}
    (h : ∀ x ∈ l, f x = g x) : l.all f = l.all g := by
  induction l with
  | nil => rfl
  | cons hd tl ih =>
    simp only [List.all_cons]
    rw [h hd (List.mem_cons_self _ _), ih (fun x hx => h x (List.mem_cons_of_mem _ hx))]

theorem mem_idsOf_iff_taskOf {tasks : List Task} {tid : Nat} :
    tid ∈ idsOf tasks ↔ (taskOf tasks tid).isSome :=
  (taskOf_isSome_iff tasks tid).symm

/-!
### First-run / second-run invariants of `syncCompositeCompletion`

On a task list whose resolved-parent relation is acyclic (witnessed by a
rank function decreasing from parent to child), one walk leaves every
composite satisfying `completed = AND of children` with no stale
`completedAt`; a second walk then changes nothing and reports no change. -/

/-- The composite invariant at id `v`: values from `tasks`, structure
from `tasks0`. -/
def goodAt (tasks0 tasks : List Task) (v : Nat) : Prop :=
  kidsIds tasks0 v ≠ [] →
    (completedOf tasks v = (kidsIds tasks0 v).all (completedOf tasks)
     ∧ (completedOf tasks v = false → completedAtOf tasks v = none))

/-- Id `v` is fully processed: its children are visited, none of them is
still in progress (`A` is the recursion stack), and the composite
invariant holds. -/
def finalized (tasks0 : List Task) (st : SyncSt) (A : List Nat) (v : Nat) : Prop :=
  (∀ k ∈ kidsIds tasks0 v, k ∈ st.visited ∧ k ∉ A) ∧ goodAt tasks0 st.tasks v

/-- Every visited id outside the recursion stack is finalized. -/
def Pinv (tasks0 : List Task) (st : SyncSt) (A : List Nat) : Prop :=
  ∀ v ∈ st.visited, v ∉ A → finalized tasks0 st A v

theorem goodAt_congr {tasks0 t1 t2 : List Task} {v : Nat}
    (hv : taskOf t1 v = taskOf t2 v)
    (hk : ∀ k ∈ kidsIds tasks0 v, taskOf t1 k = taskOf t2 k)
    (h : goodAt tasks0 t2 v) : goodAt tasks0 t1 v := by
  intro hne
  obtain ⟨h1, h2⟩ := h hne
  refine ⟨?_, ?_⟩
  · calc completedOf t1 v = completedOf t2 v := completedOf_congr hv
      _ = (kidsIds tasks0 v).all (completedOf t2) := h1
      _ = (kidsIds tasks0 v).all (completedOf t1) :=
        list_all_congr (fun k hkm => (completedOf_congr (hk k hkm)).symm)
  · intro hfalse
    rw [completedAtOf_congr hv]
    apply h2
    rw [← completedOf_congr hv]
    exact hfalse

/-- First run of the `syncCompositeCompletion` walk on an acyclic
(resolved-parent) structure: visited ids outside the recursion stack end
up finalized, previously visited ids are untouched. -/
theorem walkF_run1 (ts : String) (tasks0 : List Task) (rank : Nat → Nat)
    (hrank : ∀ p k, k ∈ kidsIds tasks0 p → rank k < rank p) :
    ∀ fuel st tid A st',
      shapes st.tasks = shapes tasks0 →
      (∀ a ∈ A, a ∈ st.visited) →
      (∀ a ∈ A, rank tid < rank a) →
      Pinv tasks0 st A →
      walkF ts fuel st tid = some st' →
      shapes st'.tasks = shapes tasks0 ∧
      (∀ v ∈ st.visited, v ∈ st'.visited) ∧
      (tid ∈ idsOf tasks0 → tid ∈ st'.visited) ∧
      (∀ v ∈ st.visited, taskOf st'.tasks v = taskOf st.tasks v) ∧
      Pinv tasks0 st' A := by
  intro fuel
  induction fuel with
  | zero =>
    intro st tid A st' _ _ _ _ hw
    exact absurd hw (by simp [walkF])
  | succ fuel ih =>
    intro st tid A st' hsh hAvis hArank hP hw
    rw [walkF] at hw
    by_cases hvis : tid ∈ st.visited
    · rw [if_pos hvis] at hw
      injection hw with hw
      subst hw
      exact ⟨hsh, fun v hv => hv, fun _ => hvis, fun v _ => rfl, hP⟩
    · rw [if_neg hvis] at hw
      cases hta : taskOf st.tasks tid with
      | none =>
        rw [hta] at hw
        injection hw with hw
        subst hw
        refine ⟨hsh, fun v hv => hv, ?_, fun v _ => rfl, hP⟩
        intro hmem
        have : (taskOf st.tasks tid).isSome :=
          (taskOf_isSome_iff st.tasks tid).mpr
            (by rw [idsOf_eq_of_shapes_eq hsh]; exact hmem)
        rw [hta] at this
        exact absurd this (by simp)
      | some t0 =>
        rw [hta] at hw
        dsimp only at hw
        have htidmem : tid ∈ idsOf tasks0 := by
          rw [← idsOf_eq_of_shapes_eq hsh, mem_idsOf_iff_taskOf, hta]
          rfl
        have hk1 : kidsIds st.tasks tid = kidsIds tasks0 tid := kidsIds_shape_eq hsh tid
        -- the recursion-stack grows by tid
        have hP1 : Pinv tasks0 ⟨st.tasks, tid :: st.visited, st.changed⟩ (tid :: A) := by
          intro v hvv hvA
          have hv2 : v ∈ st.visited := by
            rcases List.mem_cons.mp hvv with rfl | h2
            · exact absurd (List.mem_cons_self _ _) hvA
            · exact h2
          have hvnA : v ∉ A := fun hc => hvA (List.mem_cons_of_mem _ hc)
          obtain ⟨hk, hg⟩ := hP v hv2 hvnA
          refine ⟨?_, hg⟩
          intro k hkm
          obtain ⟨hkvis, hknA⟩ := hk k hkm
          refine ⟨List.mem_cons_of_mem _ hkvis, ?_⟩
          intro hc
          rcases List.mem_cons.mp hc with rfl | h2
          · exact hvis hkvis
          · exact hknA h2
        -- fold over the children
        have hfold :
          ∀ (l : List Nat), (∀ x ∈ l, x ∈ kidsIds tasks0 tid) →
          ∀ (s st2 : SyncSt), shapes s.tasks = shapes tasks0 →
            (∀ a ∈ (tid :: A), a ∈ s.visited) →
            Pinv tasks0 s (tid :: A) →
            l.foldlM (walkF ts fuel) s = some st2 →
            shapes st2.tasks = shapes tasks0 ∧
            (∀ v ∈ s.visited, v ∈ st2.visited) ∧
            (∀ v ∈ s.visited, taskOf st2.tasks v = taskOf s.tasks v) ∧
            Pinv tasks0 st2 (tid :: A) ∧
            (∀ x ∈ l, x ∈ st2.visited) := by
          intro l
          induction l with
          | nil =>
            intro _ s st2 hsh2 _ hP2 hf
            simp only [List.foldlM_nil] at hf
            injection hf with hf
            subst hf
            exact ⟨hsh2, fun v hv => hv, fun v _ => rfl, hP2, by simp⟩
          | cons x xs ihl =>
            intro hl s st2 hsh2 hA2 hP2 hf
            simp only [List.foldlM_cons] at hf
            cases hstep : walkF ts fuel s x with
            | none => rw [hstep] at hf; exact absurd hf (by simp)
            | some smid =>
              rw [hstep] at hf
              simp only [Option.bind_eq_bind, Option.some_bind] at hf
              have hxkid : x ∈ kidsIds tasks0 tid := hl x (List.mem_cons_self _ _)
              have hstepfacts := ih s x (tid :: A) smid hsh2 hA2
                (by
                  intro a ha
                  rcases List.mem_cons.mp ha with rfl | h2
                  · exact hrank a x hxkid
                  · exact lt_trans (hrank tid x hxkid) (hArank a h2))
                hP2 hstep
              obtain ⟨hshm, hgrowm, hxvism, hfrozm, hPm⟩ := hstepfacts
              have hrest := ihl (fun y hy => hl y (List.mem_cons_of_mem _ hy))
                smid st2 hshm (fun a ha => hgrowm a (hA2 a ha)) hPm hf
              obtain ⟨hsh3, hgrow3, hfroz3, hP3, hxs3⟩ := hrest
              refine ⟨hsh3, fun v hv => hgrow3 v (hgrowm v hv), ?_, hP3, ?_⟩
              · intro v hv
                rw [hfroz3 v (hgrowm v hv), hfrozm v hv]
              · intro y hy
                rcases List.mem_cons.mp hy with rfl | h2
                · exact hgrow3 y (hxvism (mem_idsOf_of_mem_kidsIds hxkid))
                · exact hxs3 y h2
        cases hfr : (kidsIds st.tasks tid).foldlM (walkF ts fuel)
            ⟨st.tasks, tid :: st.visited, st.changed⟩ with
        | none => rw [hfr] at hw; exact absurd hw (by simp)
        | some st2 =>
          rw [hfr] at hw
          dsimp only at hw
          have hfacts := hfold (kidsIds st.tasks tid) (by rw [hk1]; exact fun x hx => hx)
            ⟨st.tasks, tid :: st.visited, st.changed⟩ st2 hsh
            (by
              intro a ha
              rcases List.mem_cons.mp ha with rfl | h2
              · exact List.mem_cons_self _ _
              · exact List.mem_cons_of_mem _ (hAvis a h2))
            hP1 hfr
          obtain ⟨hsh2, hgrow2, hfroz2, hP2, hkidsvis⟩ := hfacts
          have hk2 : kidsIds st2.tasks tid = kidsIds tasks0 tid := kidsIds_shape_eq hsh2 tid
          have htidvis2 : tid ∈ st2.visited := hgrow2 tid (List.mem_cons_self _ _)
          have htid_not_kid : tid ∉ kidsIds tasks0 tid := by
            intro hc
            exact lt_irrefl _ (hrank tid tid hc)
          have hkart : ∀ k ∈ kidsIds tasks0 tid, k ∉ A := by
            intro k hkm hc
            exact lt_asymm (hrank tid k hkm) (hArank k hc)
          -- common downgrade of the invariant for ids other than tid
          have hdowng : ∀ (stF : SyncSt), stF.visited = st2.visited →
              (∀ v, v ≠ tid → taskOf stF.tasks v = taskOf st2.tasks v) →
              ∀ v ∈ st2.visited, v ∉ A → v ≠ tid →
              finalized tasks0 stF A v := by
            intro stF hvisF htaF v hvv hvA hvtid
            have hvA2 : v ∉ (tid :: A) := by
              intro hc
              rcases List.mem_cons.mp hc with rfl | h2
              · exact hvtid rfl
              · exact hvA h2
            obtain ⟨hkv, hgv⟩ := hP2 v hvv hvA2
            refine ⟨?_, ?_⟩
            · intro k hkm
              obtain ⟨hkvis, hknA2⟩ := hkv k hkm
              exact ⟨hvisF ▸ hkvis, fun hc => hknA2 (List.mem_cons_of_mem _ hc)⟩
            · apply goodAt_congr (htaF v hvtid) _ hgv
              intro k hkm
              have hktid : k ≠ tid := by
                intro hc
                exact (hkv k hkm).2 (hc ▸ List.mem_cons_self _ _)
              exact htaF k hktid
          by_cases hkids : kidsIds st2.tasks tid = []
          · rw [if_pos hkids] at hw
            injection hw with hw
            subst hw
            refine ⟨hsh2, ?_, fun _ => htidvis2, ?_, ?_⟩
            · intro v hv
              exact hgrow2 v (List.mem_cons_of_mem _ hv)
            · intro v hv
              exact hfroz2 v (List.mem_cons_of_mem _ hv)
            · intro v hvv hvA
              by_cases hvt : v = tid
              · subst hvt
                rw [hk2] at hkids
                exact ⟨by rw [hkids]; intro k hk; exact absurd hk (List.not_mem_nil k),
                  by rw [goodAt, hkids]; intro hc; exact absurd rfl hc⟩
              · exact hdowng st2 rfl (fun v2 _ => rfl) v hvv hvA hvt
          · rw [if_neg hkids] at hw
            have hkne : kidsIds tasks0 tid ≠ [] := by rwa [hk2] at hkids
            obtain ⟨t2, ht2⟩ : ∃ t2, taskOf st2.tasks tid = some t2 := by
              have : (taskOf st2.tasks tid).isSome :=
                (taskOf_isSome_iff st2.tasks tid).mpr
                  (by rw [idsOf_eq_of_shapes_eq hsh2]; exact htidmem)
              exact Option.isSome_iff_exists.mp this
            by_cases hneq : completedOf st2.tasks tid
                ≠ (kidsIds st2.tasks tid).all (completedOf st2.tasks)
            · rw [if_pos hneq] at hw
              injection hw with hw
              subst hw
              set shouldBe := (kidsIds st2.tasks tid).all (completedOf st2.tasks) with hsbdef
              set stF : SyncSt := ⟨updateById st2.tasks tid
                (fun t => setTaskCompletion t shouldBe ts), st2.visited, true⟩ with hstF
              have hfid : ∀ t : Task, (setTaskCompletion t shouldBe ts).id = t.id :=
                fun t => rfl
              have hself : taskOf stF.tasks tid
                  = some (setTaskCompletion t2 shouldBe ts) := by
                rw [hstF]
                dsimp only
                rw [taskOf_updateById_self _ _ _ hfid, ht2]
                rfl
              have hother : ∀ v, v ≠ tid → taskOf stF.tasks v = taskOf st2.tasks v := by
                intro v hv
                rw [hstF]
                dsimp only
                exact taskOf_updateById_other _ _ _ _ hfid hv
              have hshF : shapes stF.tasks = shapes tasks0 := by
                rw [hstF]
                dsimp only
                rw [shapes_updateById st2.tasks tid
                  (fun t => setTaskCompletion t shouldBe ts) (fun t => rfl)]
                exact hsh2
              have hcompF : completedOf stF.tasks tid = shouldBe := by
                rw [completedOf, hself]
                rfl
              have hkidsval : ∀ k ∈ kidsIds tasks0 tid,
                  taskOf stF.tasks k = taskOf st2.tasks k := by
                intro k hkm
                apply hother
                intro hc
                exact htid_not_kid (hc ▸ hkm)
              refine ⟨hshF, ?_, fun _ => htidvis2, ?_, ?_⟩
              · intro v hv
                exact hgrow2 v (List.mem_cons_of_mem _ hv)
              · intro v hv
                have hvtid : v ≠ tid := fun hc => hvis (hc ▸ hv)
                rw [hother v hvtid]
                exact hfroz2 v (List.mem_cons_of_mem _ hv)
              · intro v hvv hvA
                by_cases hvt : v = tid
                · rw [hvt]
                  refine ⟨?_, ?_⟩
                  · intro k hkm
                    exact ⟨hkidsvis k (by rwa [hk1]), hkart k hkm⟩
                  · intro _
                    refine ⟨?_, ?_⟩
                    · rw [hcompF]
                      have : (kidsIds tasks0 tid).all (completedOf stF.tasks)
                          = (kidsIds tasks0 tid).all (completedOf st2.tasks) :=
                        list_all_congr (fun k hkm => completedOf_congr (hkidsval k hkm))
                      rw [this, hsbdef, hk2]
                    · intro hfalse
                      rw [hcompF] at hfalse
                      rw [completedAtOf, hself]
                      dsimp only [setTaskCompletion]
                      rw [hfalse]
                      rfl
                · exact hdowng stF rfl hother v hvv hvA hvt
            · rw [if_neg hneq] at hw
              push_neg at hneq
              by_cases hsb : (kidsIds st2.tasks tid).all (completedOf st2.tasks) = false
              · rw [if_pos hsb] at hw
                injection hw with hw
                subst hw
                set stF : SyncSt := ⟨updateById st2.tasks tid
                  (fun t => { t with completedAt := none }), st2.visited,
                  st2.changed || (completedAtOf st2.tasks tid ≠ none)⟩ with hstF
                have hfid : ∀ t : Task, (Task.mk t.id t.text t.completed none t.parentId t.sectionName).id = t.id :=
                  fun t => rfl
                have hself : taskOf stF.tasks tid = some { t2 with completedAt := none } := by
                  rw [hstF]
                  dsimp only
                  rw [taskOf_updateById_self st2.tasks tid
                    (fun t => { t with completedAt := none }) (fun t => rfl), ht2]
                  rfl
                have hother : ∀ v, v ≠ tid → taskOf stF.tasks v = taskOf st2.tasks v := by
                  intro v hv
                  rw [hstF]
                  dsimp only
                  exact taskOf_updateById_other st2.tasks tid v
                    (fun t => { t with completedAt := none }) (fun t => rfl) hv
                have hshF : shapes stF.tasks = shapes tasks0 := by
                  rw [hstF]
                  dsimp only
                  rw [shapes_updateById st2.tasks tid
                    (fun t => { t with completedAt := none }) (fun t => rfl)]
                  exact hsh2
                have hcompF : completedOf stF.tasks tid = completedOf st2.tasks tid := by
                  rw [completedOf, completedOf, hself, ht2]
                have hkidsval : ∀ k ∈ kidsIds tasks0 tid,
                    taskOf stF.tasks k = taskOf st2.tasks k := by
                  intro k hkm
                  apply hother
                  intro hc
                  exact htid_not_kid (hc ▸ hkm)
                refine ⟨hshF, ?_, fun _ => htidvis2, ?_, ?_⟩
                · intro v hv
                  exact hgrow2 v (List.mem_cons_of_mem _ hv)
                · intro v hv
                  have hvtid : v ≠ tid := fun hc => hvis (hc ▸ hv)
                  rw [hother v hvtid]
                  exact hfroz2 v (List.mem_cons_of_mem _ hv)
                · intro v hvv hvA
                  by_cases hvt : v = tid
                  · rw [hvt]
                    refine ⟨?_, ?_⟩
                    · intro k hkm
                      exact ⟨hkidsvis k (by rwa [hk1]), hkart k hkm⟩
                    · intro _
                      refine ⟨?_, ?_⟩
                      · rw [hcompF, hneq]
                        have : (kidsIds tasks0 tid).all (completedOf stF.tasks)
                            = (kidsIds tasks0 tid).all (completedOf st2.tasks) :=
                          list_all_congr (fun k hkm => completedOf_congr (hkidsval k hkm))
                        rw [this, hk2]
                      · intro _
                        rw [completedAtOf, hself]
                  · exact hdowng stF rfl hother v hvv hvA hvt
              · rw [if_neg hsb] at hw
                injection hw with hw
                subst hw
                refine ⟨hsh2, ?_, fun _ => htidvis2, ?_, ?_⟩
                · intro v hv
                  exact hgrow2 v (List.mem_cons_of_mem _ hv)
                · intro v hv
                  exact hfroz2 v (List.mem_cons_of_mem _ hv)
                · intro v hvv hvA
                  by_cases hvt : v = tid
                  · rw [hvt]
                    refine ⟨?_, ?_⟩
                    · intro k hkm
                      exact ⟨hkidsvis k (by rwa [hk1]), hkart k hkm⟩
                    · intro _
                      refine ⟨by rw [hneq, hk2], ?_⟩
                      · intro hfalse
                        rw [hfalse] at hneq
                        rw [← hneq] at hsb
                        exact absurd rfl hsb
                  · exact hdowng st2 rfl (fun v2 _ => rfl) v hvv hvA hvt

theorem eraseCompletedAt_eq_self {t : Task} (h : t.completedAt = none) :
    ({ t with completedAt := none } : Task) = t := by
  cases t with
  | mk i tx c ca p sec =>
    simp only at h
    subst h
    rfl

/-- Second run: on a list where every composite already satisfies the
invariant, the walk neither changes tasks nor sets `changed`. -/
theorem walkF_run2 (ts : String) (tasks0 : List Task)
    (hnodup : (idsOf tasks0).Nodup)
    (hall : ∀ v ∈ idsOf tasks0, goodAt tasks0 tasks0 v) :
    ∀ fuel st tid st', st.tasks = tasks0 →
      walkF ts fuel st tid = some st' →
      st'.tasks = tasks0 ∧ st'.changed = st.changed := by
  intro fuel
  induction fuel with
  | zero =>
    intro st tid st' _ hw
    exact absurd hw (by simp [walkF])
  | succ fuel ih =>
    intro st tid st' hst hw
    rw [walkF] at hw
    by_cases hvis : tid ∈ st.visited
    · rw [if_pos hvis] at hw
      injection hw with hw
      subst hw
      exact ⟨hst, rfl⟩
    · rw [if_neg hvis] at hw
      cases hta : taskOf st.tasks tid with
      | none =>
        rw [hta] at hw
        injection hw with hw
        subst hw
        exact ⟨hst, rfl⟩
      | some t0 =>
        rw [hta] at hw
        dsimp only at hw
        have hfold : ∀ (l : List Nat) (s st2 : SyncSt), s.tasks = tasks0 →
            l.foldlM (walkF ts fuel) s = some st2 →
            st2.tasks = tasks0 ∧ st2.changed = s.changed := by
          intro l
          induction l with
          | nil =>
            intro s st2 hs hf
            simp only [List.foldlM_nil] at hf
            injection hf with hf
            subst hf
            exact ⟨hs, rfl⟩
          | cons x xs ihl =>
            intro s st2 hs hf
            simp only [List.foldlM_cons] at hf
            cases hstep : walkF ts fuel s x with
            | none => rw [hstep] at hf; exact absurd hf (by simp)
            | some smid =>
              rw [hstep] at hf
              simp only [Option.bind_eq_bind, Option.some_bind] at hf
              obtain ⟨hmt, hmc⟩ := ih s x smid hs hstep
              obtain ⟨h2t, h2c⟩ := ihl smid st2 hmt hf
              exact ⟨h2t, h2c.trans hmc⟩
        cases hfr : (kidsIds st.tasks tid).foldlM (walkF ts fuel)
            ⟨st.tasks, tid :: st.visited, st.changed⟩ with
        | none => rw [hfr] at hw; exact absurd hw (by simp)
        | some st2 =>
          rw [hfr] at hw
          dsimp only at hw
          obtain ⟨h2t, h2c⟩ := hfold _ _ _ (by rw [hst]) hfr
          have htidmem : tid ∈ idsOf tasks0 := by
            rw [mem_idsOf_iff_taskOf, ← hst, hta]
            rfl
          have hgood := hall tid htidmem
          by_cases hkids : kidsIds st2.tasks tid = []
          · rw [if_pos hkids] at hw
            injection hw with hw
            subst hw
            exact ⟨h2t, h2c⟩
          · rw [if_neg hkids] at hw
            have hkne : kidsIds tasks0 tid ≠ [] := by rwa [h2t] at hkids
            obtain ⟨hg1, hg2⟩ := hgood hkne
            have hcomp_eq : completedOf st2.tasks tid
                = (kidsIds st2.tasks tid).all (completedOf st2.tasks) := by
              rw [h2t, hg1]
            rw [if_neg (by rw [hcomp_eq]; exact fun hc => hc rfl)] at hw
            by_cases hsb : (kidsIds st2.tasks tid).all (completedOf st2.tasks) = false
            · rw [if_pos hsb] at hw
              injection hw with hw
              subst hw
              have hfalse : completedOf tasks0 tid = false := by
                rw [← h2t] at hg1 ⊢
                rw [hcomp_eq, hsb]
              have hnone : completedAtOf tasks0 tid = none := hg2 hfalse
              have hupd : updateById st2.tasks tid (fun t => { t with completedAt := none })
                  = tasks0 := by
                rw [h2t]
                apply updateById_eq_self
                intro t htm htid
                have := taskOf_eq_of_nodup hnodup htm
                rw [htid] at this
                have ht0 : completedAtOf tasks0 tid = t.completedAt := by
                  rw [completedAtOf, this]
                rw [hnone] at ht0
                exact eraseCompletedAt_eq_self ht0.symm
              have hchg : (st2.changed || (completedAtOf st2.tasks tid ≠ none : Bool))
                  = st2.changed := by
                rw [h2t]
                have : (completedAtOf tasks0 tid ≠ none : Bool) = false := by
                  rw [hnone]
                  simp
                rw [this, Bool.or_false]
              exact ⟨hupd, by rw [hchg]; exact h2c⟩
            · rw [if_neg hsb] at hw
              injection hw with hw
              subst hw
              exact ⟨h2t, h2c⟩

theorem foldlM_run1 (ts : String) (tasks0 : List Task) (rank : Nat → Nat)
    (hrank : ∀ p k, k ∈ kidsIds tasks0 p → rank k < rank p) (fuel : Nat) :
    ∀ (l : List Nat) (s st2 : SyncSt), shapes s.tasks = shapes tasks0 →
      Pinv tasks0 s [] →
      l.foldlM (walkF ts fuel) s = some st2 →
      shapes st2.tasks = shapes tasks0 ∧
      (∀ v ∈ s.visited, v ∈ st2.visited) ∧
      Pinv tasks0 st2 [] ∧
      (∀ x ∈ l, x ∈ idsOf tasks0 → x ∈ st2.visited) := by
  intro l
  induction l with
  | nil =>
    intro s st2 hsh hP hf
    simp only [List.foldlM_nil] at hf
    injection hf with hf
    subst hf
    exact ⟨hsh, fun v hv => hv, hP, by simp⟩
  | cons x xs ihl =>
    intro s st2 hsh hP hf
    simp only [List.foldlM_cons] at hf
    cases hstep : walkF ts fuel s x with
    | none => rw [hstep] at hf; exact absurd hf (by simp)
    | some smid =>
      rw [hstep] at hf
      simp only [Option.bind_eq_bind, Option.some_bind] at hf
      obtain ⟨hshm, hgrowm, hmemm, _, hPm⟩ :=
        walkF_run1 ts tasks0 rank hrank fuel s x [] smid hsh
          (by simp) (by simp) hP hstep
      obtain ⟨hsh2, hgrow2, hP2, hxs2⟩ := ihl smid st2 hshm hPm hf
      refine ⟨hsh2, fun v hv => hgrow2 v (hgrowm v hv), hP2, ?_⟩
      intro y hy hymem
      rcases List.mem_cons.mp hy with rfl | h2
      · exact hgrow2 y (hmemm hymem)
      · exact hxs2 y h2 hymem

theorem foldlM_run2 (ts : String) (tasks0 : List Task)
    (hnodup : (idsOf tasks0).Nodup)
    (hall : ∀ v ∈ idsOf tasks0, goodAt tasks0 tasks0 v) (fuel : Nat) :
    ∀ (l : List Nat) (s st2 : SyncSt), s.tasks = tasks0 →
      l.foldlM (walkF ts fuel) s = some st2 →
      st2.tasks = tasks0 ∧ st2.changed = s.changed := by
  intro l
  induction l with
  | nil =>
    intro s st2 hs hf
    simp only [List.foldlM_nil] at hf
    injection hf with hf
    subst hf
    exact ⟨hs, rfl⟩
  | cons x xs ihl =>
    intro s st2 hs hf
    simp only [List.foldlM_cons] at hf
    cases hstep : walkF ts fuel s x with
    | none => rw [hstep] at hf; exact absurd hf (by simp)
    | some smid =>
      rw [hstep] at hf
      simp only [Option.bind_eq_bind, Option.some_bind] at hf
      obtain ⟨hmt, hmc⟩ := walkF_run2 ts tasks0 hnodup hall fuel s x smid hs hstep
      obtain ⟨h2t, h2c⟩ := ihl smid st2 hmt hf
      exact ⟨h2t, h2c.trans hmc⟩

/-- C5, as amended: on a task list with unique ids whose resolved
`parentId` graph is acyclic (witnessed by a rank function decreasing from
parent to child), running `syncCompositeCompletion` a second time
immediately after a first run is a no-op: it returns `changed = false`
and leaves every task's `completed` and `completedAt` unchanged.  (The
original claim, quantified over cyclic lists as well, is refuted by
`claim_C5_counterexample`.) -/
theorem claim_C5 (tasks : List Task) (ts1 ts2 : String) (rank : Nat → Nat)
    (hnodup : (idsOf tasks).Nodup)
    (hrank : ∀ p k, k ∈ kidsIds tasks p → rank k < rank p) :
    ∃ out : List Task × Bool,
      syncCompositeCompletion ts1 tasks = some out ∧
      syncCompositeCompletion ts2 out.1 = some (out.1, false) := by
  have hIs := syncCompositeCompletion_isSome ts1 tasks
  obtain ⟨out1, hout1⟩ := Option.isSome_iff_exists.mp hIs
  refine ⟨out1, hout1, ?_⟩
  simp only [syncCompositeCompletion] at hout1
  cases hfr1 : (childIdsOf tasks none).foldlM (walkF ts1 (tasks.length + 1))
      ⟨tasks, [], false⟩ with
  | none =>
    rw [hfr1] at hout1
    exact absurd hout1 (by simp)
  | some st1 =>
    rw [hfr1] at hout1
    dsimp only at hout1
    cases hfr2 : (idsOf tasks).foldlM (walkF ts1 (tasks.length + 1)) st1 with
    | none =>
      rw [hfr2] at hout1
      exact absurd hout1 (by simp)
    | some st2 =>
      rw [hfr2] at hout1
      dsimp only at hout1
      injection hout1 with hout1
      -- first run facts
      obtain ⟨hsh1, _, hP1, _⟩ :=
        foldlM_run1 ts1 tasks rank hrank (tasks.length + 1) (childIdsOf tasks none)
          ⟨tasks, [], false⟩ st1 rfl (by intro v hv _; exact absurd hv (List.not_mem_nil v))
          hfr1
      obtain ⟨hsh2, _, hP2, hvisAll⟩ :=
        foldlM_run1 ts1 tasks rank hrank (tasks.length + 1) (idsOf tasks) st1 st2
          hsh1 hP1 hfr2
      have hfin : ∀ v ∈ idsOf tasks, goodAt tasks st2.tasks v := by
        intro v hv
        exact (hP2 v (hvisAll v hv hv) (List.not_mem_nil v)).2
      -- second run on out1.1 = st2.tasks
      have hT1 : out1.1 = st2.tasks := by rw [← hout1]
      have hidseq : idsOf st2.tasks = idsOf tasks := idsOf_eq_of_shapes_eq hsh2
      have hnodup2 : (idsOf st2.tasks).Nodup := by rw [hidseq]; exact hnodup
      have hall2 : ∀ v ∈ idsOf st2.tasks, goodAt st2.tasks st2.tasks v := by
        intro v hv
        have hg := hfin v (by rwa [hidseq] at hv)
        unfold goodAt at hg ⊢
        rw [kidsIds_shape_eq hsh2 v]
        exact hg
      have hIs2 := syncCompositeCompletion_isSome ts2 st2.tasks
      obtain ⟨out2, hout2⟩ := Option.isSome_iff_exists.mp hIs2
      have hchar : out2 = (st2.tasks, false) := by
        simp only [syncCompositeCompletion] at hout2
        cases hfr1b : (childIdsOf st2.tasks none).foldlM
            (walkF ts2 (st2.tasks.length + 1)) ⟨st2.tasks, [], false⟩ with
        | none =>
          rw [hfr1b] at hout2
          exact absurd hout2 (by simp)
        | some st1b =>
          rw [hfr1b] at hout2
          dsimp only at hout2
          cases hfr2b : (idsOf st2.tasks).foldlM (walkF ts2 (st2.tasks.length + 1)) st1b with
          | none =>
            rw [hfr2b] at hout2
            exact absurd hout2 (by simp)
          | some st2b =>
            rw [hfr2b] at hout2
            dsimp only at hout2
            injection hout2 with hout2
            obtain ⟨h1t, h1c⟩ :=
              foldlM_run2 ts2 st2.tasks hnodup2 hall2 (st2.tasks.length + 1)
                (childIdsOf st2.tasks none) ⟨st2.tasks, [], false⟩ st1b rfl hfr1b
            obtain ⟨h2t, h2c⟩ :=
              foldlM_run2 ts2 st2.tasks hnodup2 hall2 (st2.tasks.length + 1)
                (idsOf st2.tasks) st1b st2b h1t hfr2b
            rw [← hout2, h2t, h2c, h1c]
      rw [hT1, hout2, hchar]

/-- C5 counterexample: on the cyclic list `[1 ↦ parent 2, 2 ↦ parent 1,
3 ↦ parent 1]` (ids 1,2 complete, 3 incomplete) the second
`syncCompositeCompletion` run still reports `changed = true`, refuting
idempotence for arbitrary (cyclic) task lists. -/
theorem claim_C5_counterexample :
    ((syncCompositeCompletion "T1"
        [⟨1, "a", true, none, some 2, "Tasks"⟩,
         ⟨2, "b", true, none, some 1, "Tasks"⟩,
         ⟨3, "c", false, none, some 1, "Tasks"⟩]).bind
      (fun r1 => syncCompositeCompletion "T2" r1.1)).map (·.2) = some true := by
  rfl

/-- Closed instance of `claim_C5` at a concrete one-task list. -/
theorem claim_C5_witness :
    ∃ out : List Task × Bool,
      syncCompositeCompletion "T1" [⟨1, "a", false, none, none, "Tasks"⟩] = some out ∧
      syncCompositeCompletion "T2" out.1 = some (out.1, false) :=
  claim_C5 [⟨1, "a", false, none, none, "Tasks"⟩] "T1" "T2" (fun n => n)
    (by decide)
    (by
      intro p k hk
      simp [kidsIds, childrenOf, getParentId] at hk)

/-!
### `toggleTask` -/

theorem getParentId_mem {tasks : List Task} {t : Task} {p : Nat}
    (h : getParentId tasks t = some p) : p ∈ idsFinset tasks := by
  rw [getParentId] at h
  cases hpar : t.parentId with
  | none => rw [hpar] at h; exact absurd h (by simp)
  | some q =>
    rw [hpar] at h
    dsimp only at h
    by_cases h0 : q = 0
    · rw [if_pos h0] at h; exact absurd h (by simp)
    · rw [if_neg h0] at h
      by_cases hself : q = t.id
      · rw [if_pos hself] at h; exact absurd h (by simp)
      · rw [if_neg hself] at h
        by_cases hany : tasks.any (fun u => u.id = q)
        · rw [if_pos hany] at h
          injection h with h
          subst h
          rw [any_id_eq_mem_idsOf] at hany
          rw [idsFinset, List.mem_toFinset]
          exact of_decide_eq_true hany
        · rw [if_neg hany] at h; exact absurd h (by simp)

/-- `syncAncestorCompletion(task, tasksById, childrenByParent, timestamp)`:
the fueled loop at always-sufficient fuel. -/
def syncAncestorCompletion (ts : String) (tasks : List Task) (task : Task) :
    Option (List Task) :=
  syncAncestorF ts ((idsFinset tasks).card + 1) tasks [] (getParentId tasks task)

theorem syncAncestorCompletion_isSome (ts : String) (tasks : List Task) (task : Task) :
    (syncAncestorCompletion ts tasks task).isSome := by
  apply syncAncestorF_isSome
  · intro p hp
    exact getParentId_mem hp
  · have : (idsFinset tasks \ ([] : List Nat).toFinset).card ≤ (idsFinset tasks).card :=
      Finset.card_le_card (Finset.sdiff_subset)
    omega

/-- `toggleTask(taskId)`: flips the task, forces every collected
descendant to the same state and timestamp, then recomputes ancestors. -/
def toggleTask (ts : String) (tasks : List Task) (tid : Nat) : Option (List Task) :=
  match taskOf tasks tid with
  | none => some tasks
  | some task =>
    let next := !task.completed
    let tasks1 := updateById tasks tid (fun t => setTaskCompletion t next ts)
    match collectDescendants tasks1 tid with
    | none => none
    | some descs =>
      let tasks2 := descs.foldl
        (fun acc d => updateById acc d.id (fun t => setTaskCompletion t next ts)) tasks1
      syncAncestorCompletion ts tasks2 task

theorem toggleTask_isSome (ts : String) (tasks : List Task) (tid : Nat) :
    (toggleTask ts tasks tid).isSome := by
  rw [toggleTask]
  cases hta : taskOf tasks tid with
  | none => rfl
  | some task =>
    dsimp only
    cases hcd : collectDescendants (updateById tasks tid
        (fun t => setTaskCompletion t (!task.completed) ts)) tid with
    | none =>
      have := collectDescendants_isSome (updateById tasks tid
        (fun t => setTaskCompletion t (!task.completed) ts)) tid
      rw [hcd] at this
      exact absurd this (by simp)
    | some descs =>
      dsimp only
      exact syncAncestorCompletion_isSome _ _ _

/-- C6: for every task list — cyclic `parentId` chains included — every
tree-engine traversal terminates: descendant collection (toggle
propagation), subtree-id collection (deletion), progress aggregation,
ancestor propagation, the global resync walk, and a full toggle all
return a result at the fuel bound derived from the visited-set argument,
instead of looping forever. -/
theorem claim_C6 (tasks : List Task) (tid : Nat) (ts : String) (task : Task) :
    (collectDescendants tasks tid).isSome ∧
    (getSubtreeTaskIds tasks tid).isSome ∧
    (getCompositeProgress tasks tid).isSome ∧
    (syncAncestorCompletion ts tasks task).isSome ∧
    (syncCompositeCompletion ts tasks).isSome ∧
    (toggleTask ts tasks tid).isSome :=
  ⟨collectDescendants_isSome tasks tid,
   getSubtreeTaskIds_isSome tasks tid,
   getCompositeProgress_isSome tasks tid,
   syncAncestorCompletion_isSome ts tasks task,
   syncCompositeCompletion_isSome ts tasks,
   toggleTask_isSome ts tasks tid⟩

/-!
### Descendant forcing under `toggleTask` -/

/-- Accumulated elements of a collecting `genLoop` inherit any property
closed under the stack / `next` edges. -/
theorem genLoop_acc_mem {α : Type} (key : α → Nat) (next : α → List α) (Q : α → Prop)
    (hQnext : ∀ t a, Q t → a ∈ next t → Q a) :
    ∀ fuel stack seen acc r, (∀ t ∈ stack, Q t) → (∀ t ∈ acc, Q t) →
      genLoop key next (fun (l : List α) t => l ++ [t]) fuel stack seen acc = some r →
      ∀ t ∈ r.2, Q t := by
  intro fuel
  induction fuel with
  | zero =>
    intro stack seen acc r hs ha hg
    match stack with
    | [] =>
      simp only [genLoop] at hg
      injection hg with hg
      subst hg
      exact ha
    | t :: rest => exact absurd hg (by simp [genLoop])
  | succ fuel ih =>
    intro stack seen acc r hs ha hg
    match stack with
    | [] =>
      simp only [genLoop] at hg
      injection hg with hg
      subst hg
      exact ha
    | t :: rest =>
      rw [genLoop] at hg
      by_cases hmem : key t ∈ seen
      · rw [if_pos hmem] at hg
        exact ih rest seen acc r (fun x hx => hs x (List.mem_cons_of_mem _ hx)) ha hg
      · rw [if_neg hmem] at hg
        apply ih (next t ++ rest) (key t :: seen) (acc ++ [t]) r _ _ hg
        · intro x hx
          rcases List.mem_append.mp hx with hx1 | hx2
          · exact hQnext t x (hs t (List.mem_cons_self _ _)) hx1
          · exact hs x (List.mem_cons_of_mem _ hx2)
        · intro x hx
          rcases List.mem_append.mp hx with hx1 | hx2
          · exact ha x hx1
          · rw [List.mem_singleton] at hx2
            exact hx2 ▸ hs t (List.mem_cons_self _ _)

theorem mem_kidsIds_of_resolved {tasks0 : List Task} {sh : Nat × Option Nat}
    (hsh : sh ∈ shapes tasks0) {q : Nat}
    (hq : resolvedParent (idsOf tasks0) sh = some q) : sh.1 ∈ kidsIds tasks0 q := by
  rw [kidsIds_eq_childIdsOf, childIdsOf_eq_shapes]
  apply List.mem_map.mpr
  refine ⟨sh, List.mem_filter.mpr ⟨hsh, ?_⟩, rfl⟩
  rw [hq]
  exact beq_self_eq_true _

/-- The upward ancestor walk never touches an id of rank at most `R`
when it enters above rank `R` (ranks grow along the parent chain). -/
theorem syncAncestorF_low_rank_frozen (ts : String) (tasks0 : List Task) (rank : Nat → Nat)
    (hrank : ∀ p k, k ∈ kidsIds tasks0 p → rank k < rank p) :
    ∀ fuel tasks seen pid out R,
      shapes tasks = shapes tasks0 →
      (∀ p, pid = some p → R < rank p) →
      syncAncestorF ts fuel tasks seen pid = some out →
      ∀ x, rank x ≤ R → taskOf out x = taskOf tasks x := by
  intro fuel
  induction fuel with
  | zero =>
    intro tasks seen pid out R _ _ h x _
    cases pid with
    | none =>
      simp only [syncAncestorF] at h
      injection h with h
      subst h
      rfl
    | some p => exact absurd h (by simp [syncAncestorF])
  | succ fuel ih =>
    intro tasks seen pid out R hsh hp h x hx
    cases pid with
    | none =>
      simp only [syncAncestorF] at h
      injection h with h
      subst h
      rfl
    | some p =>
      rw [syncAncestorF] at h
      by_cases hseen : p ∈ seen
      · rw [if_pos hseen] at h
        injection h with h
        subst h
        rfl
      · rw [if_neg hseen] at h
        cases hpar : taskOf tasks p with
        | none =>
          rw [hpar] at h
          injection h with h
          subst h
          rfl
        | some parent =>
          rw [hpar] at h
          dsimp only at h
          by_cases hch : childrenOf tasks (some p) = []
          · rw [if_pos hch] at h
            injection h with h
            subst h
            rfl
          · rw [if_neg hch] at h
            set tasks2 :=
              if parent.completed ≠ (childrenOf tasks (some p)).all (·.completed) then
                updateById tasks p (fun t => setTaskCompletion t ((childrenOf tasks (some p)).all (·.completed)) ts)
              else if ((childrenOf tasks (some p)).all (·.completed)) = false then
                updateById tasks p (fun t => { t with completedAt := none })
              else tasks with htasks2
            have hRp : R < rank p := hp p rfl
            have hxp : x ≠ p := fun hc => absurd hRp (by rw [← hc]; omega)
            have hfroz1 : taskOf tasks2 x = taskOf tasks x := by
              rw [htasks2]
              split
              · exact taskOf_updateById_other tasks p x _ (fun t => rfl) hxp
              · split
                · exact taskOf_updateById_other tasks p x _ (fun t => rfl) hxp
                · rfl
            have hsh2 : shapes tasks2 = shapes tasks0 := by
              rw [htasks2]
              split
              · rw [shapes_updateById tasks p
                  (fun t => setTaskCompletion t ((childrenOf tasks (some p)).all (·.completed)) ts)
                  (fun t => rfl)]
                exact hsh
              · split
                · rw [shapes_updateById tasks p
                    (fun t => { t with completedAt := none }) (fun t => rfl)]
                  exact hsh
                · exact hsh
            have hpar2 : tasks.find? (fun t => t.id == p) = some parent := hpar
            have hpid2 : parent.id = p := by simpa using List.find?_some hpar2
            have hparent_mem : parent ∈ tasks := List.mem_of_find?_eq_some hpar2
            have hp2 : ∀ q, getParentId tasks2 parent = some q → R < rank q := by
              intro q hq
              have hres : resolvedParent (idsOf tasks0) (shape parent) = some q := by
                rw [← idsOf_eq_of_shapes_eq hsh2, ← getParentId_eq_resolved]
                exact hq
              have hshp : shape parent ∈ shapes tasks0 := by
                rw [← hsh]
                exact List.mem_map_of_mem _ hparent_mem
              have := mem_kidsIds_of_resolved hshp hres
              rw [shape] at this
              dsimp only at this
              rw [hpid2] at this
              exact lt_trans hRp (hrank q p this)
            have := ih tasks2 (p :: seen) (getParentId tasks2 parent) out R hsh2 hp2 h x hx
            rw [this, hfroz1]

theorem idsOf_updateById (tasks : List Task) (tid : Nat) (f : Task → Task)
    (hf : ∀ t, (f t).id = t.id) : idsOf (updateById tasks tid f) = idsOf tasks := by
  simp only [idsOf, updateById, List.map_map]
  apply List.map_congr_left
  intro t _
  by_cases h : t.id = tid <;> simp [h, hf]

/-- Setting every collected descendant (the JS
`for (descendant of collectDescendants(...)) setTaskCompletion(...)`
loop) forces each one's fields, and leaves other ids alone. -/
theorem foldl_force (next : Bool) (ts : String) :
    ∀ (ds : List Task) (tasks : List Task),
      (∀ d ∈ ds, d.id ∈ idsOf tasks) →
      (∀ d ∈ ds,
        completedOf (ds.foldl (fun acc d2 => updateById acc d2.id
          (fun t => setTaskCompletion t next ts)) tasks) d.id = next
        ∧ completedAtOf (ds.foldl (fun acc d2 => updateById acc d2.id
            (fun t => setTaskCompletion t next ts)) tasks) d.id
          = (if next then some ts else none)) ∧
      (∀ x, (∀ d ∈ ds, d.id ≠ x) →
        taskOf (ds.foldl (fun acc d2 => updateById acc d2.id
          (fun t => setTaskCompletion t next ts)) tasks) x = taskOf tasks x) := by
  intro ds
  induction ds with
  | nil =>
    intro tasks _
    exact ⟨by simp, fun x _ => rfl⟩
  | cons d rest ih =>
    intro tasks hmem
    simp only [List.foldl_cons]
    have hids1 : idsOf (updateById tasks d.id (fun t => setTaskCompletion t next ts))
        = idsOf tasks := idsOf_updateById _ _ _ (fun t => rfl)
    have hmem1 : ∀ d2 ∈ rest,
        d2.id ∈ idsOf (updateById tasks d.id (fun t => setTaskCompletion t next ts)) := by
      intro d2 hd2
      rw [hids1]
      exact hmem d2 (List.mem_cons_of_mem _ hd2)
    obtain ⟨ihA, ihB⟩ := ih (updateById tasks d.id (fun t => setTaskCompletion t next ts)) hmem1
    have hself : taskOf (updateById tasks d.id (fun t => setTaskCompletion t next ts)) d.id
        = (taskOf tasks d.id).map (fun t => setTaskCompletion t next ts) :=
      taskOf_updateById_self _ _ _ (fun t => rfl)
    refine ⟨?_, ?_⟩
    · intro d2 hd2
      rcases List.mem_cons.mp hd2 with rfl | hd2r
      · by_cases hlater : ∀ d3 ∈ rest, d3.id ≠ d2.id
        · have hfroz := ihB d2.id hlater
          obtain ⟨t0, ht0⟩ := Option.isSome_iff_exists.mp
            ((taskOf_isSome_iff tasks d2.id).mpr (hmem d2 (List.mem_cons_self _ _)))
          constructor
          · rw [completedOf, hfroz, hself, ht0]
            rfl
          · rw [completedAtOf, hfroz, hself, ht0]
            rfl
        · push_neg at hlater
          obtain ⟨d3, hd3, hd3id⟩ := hlater
          have := ihA d3 hd3
          rw [hd3id] at this
          exact this
      · exact ihA d2 hd2r
    · intro x hx
      rw [ihB x (fun d3 hd3 => hx d3 (List.mem_cons_of_mem _ hd3))]
      exact taskOf_updateById_other tasks d.id x _ (fun t => rfl)
        (fun hc => hx d (List.mem_cons_self _ _) hc.symm)

theorem shapes_foldl_force (next : Bool) (ts : String) :
    ∀ (ds : List Task) (tasks : List Task),
      shapes (ds.foldl (fun acc d => updateById acc d.id
        (fun t => setTaskCompletion t next ts)) tasks) = shapes tasks := by
  intro ds
  induction ds with
  | nil => intro tasks; rfl
  | cons d rest ih =>
    intro tasks
    simp only [List.foldl_cons]
    rw [ih, shapes_updateById tasks d.id
      (fun t => setTaskCompletion t next ts) (fun t => rfl)]

/-- The spec scenario's task list: 1 is the composite, 2 and 3 its
children, all initially incomplete. -/
def exC7Tasks : List Task :=
  [⟨1, "t1", false, none, none, "Tasks"⟩,
   ⟨2, "t2", false, none, some 1, "Tasks"⟩,
   ⟨3, "t3", false, none, some 1, "Tasks"⟩]

/-- State after toggling id 2 (timestamp `TS1`) then id 3 (`TS2`). -/
def exC7Mid : List Task :=
  [⟨1, "t1", true, some "TS2", none, "Tasks"⟩,
   ⟨2, "t2", true, some "TS1", some 1, "Tasks"⟩,
   ⟨3, "t3", true, some "TS2", some 1, "Tasks"⟩]

/-- State after then toggling id 1 back (`TS3`). -/
def exC7Final : List Task :=
  [⟨1, "t1", false, none, none, "Tasks"⟩,
   ⟨2, "t2", false, none, some 1, "Tasks"⟩,
   ⟨3, "t3", false, none, some 1, "Tasks"⟩]

/-- C7: toggling a task sets its own `completed`/`completedAt` and forces
every collected descendant to the same state and timestamp (shown for
well-formed, acyclic parent graphs, where the subsequent ancestor pass
cannot revisit the forced subtree), and on the spec scenario
`[1; 2 ↦ 1; 3 ↦ 1]` toggling 2 then 3 completes task 1 with a non-null
`completedAt` (ancestor completion = AND of direct children), while
toggling 1 back forces 2 and 3 incomplete. -/
theorem claim_C7 :
    (∀ (ts : String) (tasks : List Task) (tid : Nat) (task : Task)
        (rank : Nat → Nat) (out descs : List Task),
      (∀ p k, k ∈ kidsIds tasks p → rank k < rank p) →
      taskOf tasks tid = some task →
      collectDescendants (updateById tasks tid
        (fun t => setTaskCompletion t (!task.completed) ts)) tid = some descs →
      toggleTask ts tasks tid = some out →
      (completedOf out tid = !task.completed
        ∧ completedAtOf out tid = (if !task.completed then some ts else none)
        ∧ ∀ d ∈ descs, completedOf out d.id = !task.completed
            ∧ completedAtOf out d.id = (if !task.completed then some ts else none)))
    ∧ ((toggleTask "TS1" exC7Tasks 2).bind
        (fun l1 => toggleTask "TS2" l1 3) = some exC7Mid)
    ∧ (completedOf exC7Mid 1 = true ∧ completedAtOf exC7Mid 1 = some "TS2")
    ∧ (toggleTask "TS3" exC7Mid 1 = some exC7Final)
    ∧ (completedOf exC7Final 2 = false ∧ completedOf exC7Final 3 = false
        ∧ completedOf exC7Final 1 = false) := by
  refine ⟨?_, by rfl, by decide, by rfl, by decide⟩
  intro ts tasks tid task rank out descs hrank hta hcd htog
  have next := !task.completed
  rw [toggleTask, hta] at htog
  dsimp only at htog
  rw [hcd] at htog
  dsimp only at htog
  set tasks1 := updateById tasks tid (fun t => setTaskCompletion t (!task.completed) ts)
    with htasks1
  have hsh1 : shapes tasks1 = shapes tasks := by
    rw [htasks1]
    exact shapes_updateById tasks tid
      (fun t => setTaskCompletion t (!task.completed) ts) (fun t => rfl)
  -- descendants: members of tasks1 with rank below the toggled task
  have hQ : ∀ d ∈ descs, d ∈ tasks1 ∧ rank d.id < rank tid := by
    rw [collectDescendants] at hcd
    obtain ⟨r, hr, hrdescs⟩ := Option.map_eq_some'.mp hcd
    intro d hd
    apply genLoop_acc_mem (·.id)
      (fun t => (childrenOf tasks1 (some t.id)).reverse)
      (fun d => d ∈ tasks1 ∧ rank d.id < rank tid) _ _ _ _ _ r _ _ hr d
      (by rw [hrdescs]; exact hd)
    · intro t a hQt ha
      have ham : a ∈ childrenOf tasks1 (some t.id) := List.mem_reverse.mp ha
      refine ⟨mem_of_mem_childrenOf ham, ?_⟩
      have : a.id ∈ kidsIds tasks1 t.id := List.mem_map_of_mem _ ham
      rw [kidsIds_shape_eq hsh1] at this
      exact lt_trans (hrank t.id a.id this) hQt.2
    · intro t ht
      have htm : t ∈ childrenOf tasks1 (some tid) := List.mem_reverse.mp ht
      refine ⟨mem_of_mem_childrenOf htm, ?_⟩
      have : t.id ∈ kidsIds tasks1 tid := List.mem_map_of_mem _ htm
      rw [kidsIds_shape_eq hsh1] at this
      exact hrank tid t.id this
    · intro t ht
      exact absurd ht (List.not_mem_nil t)
  have hdids : ∀ d ∈ descs, d.id ∈ idsOf tasks1 :=
    fun d hd => List.mem_map_of_mem _ (hQ d hd).1
  have hdrank : ∀ d ∈ descs, rank d.id < rank tid := fun d hd => (hQ d hd).2
  have hdne : ∀ d ∈ descs, d.id ≠ tid := by
    intro d hd hc
    exact absurd (hdrank d hd) (by rw [hc]; omega)
  obtain ⟨hvals, hfroz⟩ := foldl_force (!task.completed) ts descs tasks1 hdids
  set tasks2 := descs.foldl (fun acc d2 => updateById acc d2.id
    (fun t => setTaskCompletion t (!task.completed) ts)) tasks1 with htasks2
  have hsh2 : shapes tasks2 = shapes tasks := by
    rw [htasks2, shapes_foldl_force, hsh1]
  have hval_tid : taskOf tasks2 tid = some (setTaskCompletion task (!task.completed) ts) := by
    rw [htasks2, hfroz tid hdne, htasks1,
      taskOf_updateById_self tasks tid
        (fun t => setTaskCompletion t (!task.completed) ts) (fun t => rfl), hta]
    rfl
  -- the ancestor walk stays above rank tid
  have hta2 : tasks.find? (fun t => t.id == tid) = some task := hta
  have htaskmem : task ∈ tasks := List.mem_of_find?_eq_some hta2
  have htaskid : task.id = tid := by simpa using List.find?_some hta2
  have hp0 : ∀ p, getParentId tasks2 task = some p → rank tid < rank p := by
    intro p hq
    have hres : resolvedParent (idsOf tasks) (shape task) = some p := by
      rw [← idsOf_eq_of_shapes_eq hsh2, ← getParentId_eq_resolved]
      exact hq
    have hshp : shape task ∈ shapes tasks := List.mem_map_of_mem _ htaskmem
    have := mem_kidsIds_of_resolved hshp hres
    rw [shape] at this
    dsimp only at this
    rw [htaskid] at this
    exact hrank p tid this
  have hfrozen := syncAncestorF_low_rank_frozen ts tasks rank hrank
    ((idsFinset tasks2).card + 1) tasks2 [] (getParentId tasks2 task) out (rank tid)
    hsh2 hp0 htog
  refine ⟨?_, ?_, ?_⟩
  · rw [completedOf, hfrozen tid le_rfl, hval_tid]
    rfl
  · rw [completedAtOf, hfrozen tid le_rfl, hval_tid]
    rfl
  · intro d hd
    have hfd := hfrozen d.id (le_of_lt (hdrank d hd))
    obtain ⟨hc, hca⟩ := hvals d hd
    constructor
    · rw [completedOf, hfd]
      rw [completedOf] at hc
      exact hc
    · rw [completedAtOf, hfd]
      rw [completedAtOf] at hca
      exact hca

/-- Closed instance of `claim_C7`'s general part: toggling id 2 of the
scenario list forces its own fields. -/
theorem claim_C7_witness :
    completedOf [⟨1, "t1", false, none, none, "Tasks"⟩,
        ⟨2, "t2", true, some "TS1", some 1, "Tasks"⟩,
        ⟨3, "t3", false, none, some 1, "Tasks"⟩] 2 = !false
      ∧ completedAtOf [⟨1, "t1", false, none, none, "Tasks"⟩,
          ⟨2, "t2", true, some "TS1", some 1, "Tasks"⟩,
          ⟨3, "t3", false, none, some 1, "Tasks"⟩] 2
        = (if !false then some "TS1" else none) := by
  have hrank : ∀ p k, k ∈ kidsIds exC7Tasks p →
      (fun n => if n = 1 then 1 else 0 : Nat → Nat) k
        < (fun n => if n = 1 then 1 else 0 : Nat → Nat) p := by
    intro p k hk
    rw [kidsIds, childrenOf] at hk
    obtain ⟨t, ht, rfl⟩ := List.mem_map.mp hk
    obtain ⟨htm, hpred⟩ := List.mem_filter.mp ht
    fin_cases htm
    · exact absurd hpred (by simp [getParentId, exC7Tasks])
    · have hp1 : p = 1 := by
        have : getParentId exC7Tasks ⟨2, "t2", false, none, some 1, "Tasks"⟩
            = some 1 := by rfl
        rw [this] at hpred
        have := of_decide_eq_true (by simpa using hpred)
        omega
      subst hp1
      decide
    · have hp1 : p = 1 := by
        have : getParentId exC7Tasks ⟨3, "t3", false, none, some 1, "Tasks"⟩
            = some 1 := by rfl
        rw [this] at hpred
        have := of_decide_eq_true (by simpa using hpred)
        omega
      subst hp1
      decide
  have h := (claim_C7).1 "TS1" exC7Tasks 2 ⟨2, "t2", false, none, some 1, "Tasks"⟩
    (fun n => if n = 1 then 1 else 0)
    [⟨1, "t1", false, none, none, "Tasks"⟩,
     ⟨2, "t2", true, some "TS1", some 1, "Tasks"⟩,
     ⟨3, "t3", false, none, some 1, "Tasks"⟩]
    [] hrank (by rfl) (by rfl) (by rfl)
  exact ⟨h.1, h.2.1⟩

/-!
## `background.js` model

Timestamps (`new Date()` / `toISOString` round trips compared through
`Date.getTime`) are modelled as epoch milliseconds (`Nat`).  JS objects
used as string-keyed dictionaries (`unlocks`, `siteSettings`) are
insertion-ordered association lists, matching `Object.entries` order.
The model takes the already-normalized `Config` (the claims do not
concern `normalizeConfig`). -/

/-- JS `String.prototype.trim()` on the ASCII whitespace the handlers
meet (modelled directly so it computes by `rfl`/`decide`). -/
def isJsSpace (c : Char) : Bool :=
  c = ' ' || c = '\t' || c = '\n' || c = '\r' || c = '\x0b' || c = '\x0c'

def jsTrim (s : String) : String :=
  String.mk (((s.data.dropWhile isJsSpace).reverse.dropWhile isJsSpace).reverse)

inductive UnlockMode
  | all
  | sectionMode
  deriving Repr, DecidableEq

structure Config where
  markdownPath : String
  cooldownMinutes : Nat
  unlockMode : UnlockMode
  unlockSection : String
  deriving Repr, DecidableEq

/-- `isUnlockRequirementMet(tasks, config)` (config already normalized;
`task.section || "Tasks"` keeps the falsy-empty-string default). -/
def isUnlockRequirementMet (tasks : List Task) (cfg : Config) : Bool :=
  match cfg.unlockMode with
  | .sectionMode =>
    let sec := jsTrim cfg.unlockSection
    if sec = "" then false
    else
      let scopedTasks := tasks.filter
        (fun t => (if t.sectionName = "" then "Tasks" else t.sectionName) == sec)
      decide (0 < scopedTasks.length) && scopedTasks.all (·.completed)
  | .all => decide (0 < tasks.length) && tasks.all (·.completed)

def countCompleted (tasks : List Task) : Nat := (tasks.filter (·.completed)).length

/-- `isCostRequirementMet(tasks, config, cost, baseline)`;
`baseline || 0` is the identity on the numbers `getCostBaseline`
produces. -/
def isCostRequirementMet (tasks : List Task) (cfg : Config)
    (cost : Option Int) (baseline : Int) : Bool :=
  match cost with
  | none => isUnlockRequirementMet tasks cfg
  | some c =>
    if c ≤ 0 then isUnlockRequirementMet tasks cfg
    else decide ((countCompleted tasks : Int) - baseline ≥ c)

structure Unlock where
  unlockedAt : Nat
  expiresAt : Nat
  deriving Repr, DecidableEq

structure TimeLogEntry where
  site : String
  unlockedAt : Nat
  lockedAt : Option Nat
  paused : Bool
  justification : Option String
  deriving Repr, DecidableEq

structure Group where
  id : String
  name : String
  sites : List String
  cost : Option Int
  costBaseline : Option Int
  lastLockedAt : Option Nat
  deriving Repr, DecidableEq

structure SiteSettings where
  cost : Option Int
  costBaseline : Option Int
  lastLockedAt : Option Nat
  deriving Repr, DecidableEq

/-- A fresh `{}` settings object. -/
def emptySettings : SiteSettings := ⟨none, none, none⟩

/-- `dict[k]` on a JS object. -/
def objGet {α : Type} (m : List (String × α)) (k : String) : Option α :=
  (m.find? (fun p => p.1 == k)).map (·.2)

/-- `dict[k] = v`: updates in place, else appends (JS string-key
insertion order). -/
def objSet {α : Type} (m : List (String × α)) (k : String) (v : α) : List (String × α) :=
  if m.any (fun p => p.1 == k) then m.map (fun p => if p.1 == k then (k, v) else p)
  else m ++ [(k, v)]

theorem objGet_objSet_self {α : Type} (m : List (String × α)) (k : String) (v : α) :
    objGet (objSet m k v) k = some v := by
  unfold objGet objSet
  by_cases h : m.any (fun p => p.1 == k)
  · rw [if_pos h]
    induction m with
    | nil => exact absurd h (by simp)
    | cons hd tl ih =>
      by_cases hk : hd.1 == k
      · simp only [List.map_cons, if_pos hk]
        rw [List.find?_cons_of_pos _ (by simp)]
        rfl
      · simp only [List.map_cons, if_neg hk]
        rw [List.find?_cons_of_neg _ (by simp [hk])]
        apply ih
        simp only [List.any_cons, hk, Bool.false_or] at h
        exact h
  · rw [if_neg h]
    induction m with
    | nil =>
      simp only [List.nil_append]
      rw [List.find?_cons_of_pos _ (by simp)]
      rfl
    | cons hd tl ih =>
      simp only [List.any_cons, Bool.or_eq_true, not_or] at h
      simp only [List.cons_append]
      rw [List.find?_cons_of_neg _ (by simpa using h.1)]
      exact ih (by simpa using h.2)

/-- `resolveGroupForSite(site, siteGroups)`. -/
def resolveGroupForSite (site : String) (siteGroups : List Group) : Option Group :=
  siteGroups.find? (fun g => g.sites.contains site)

/-- The JS truthy test `x.cost >= 1` on a possibly-absent field. -/
def costGE1 : Option Int → Bool
  | some c => decide (1 ≤ c)
  | none => false

/-- `getEffectiveCost(site, siteGroups, siteSettings)`: group cost wins
when `>= 1`, else per-site cost when `>= 1`, else `null`. -/
def getEffectiveCost (site : String) (siteGroups : List Group)
    (siteSettings : List (String × SiteSettings)) : Option Int :=
  let fromSettings :=
    match objGet siteSettings site with
    | some s => if costGE1 s.cost then s.cost else none
    | none => none
  match resolveGroupForSite site siteGroups with
  | some g => if costGE1 g.cost then g.cost else fromSettings
  | none => fromSettings

/-- `getCostBaseline(site, siteGroups, siteSettings)`. -/
def getCostBaseline (site : String) (siteGroups : List Group)
    (siteSettings : List (String × SiteSettings)) : Int :=
  match (resolveGroupForSite site siteGroups).bind (·.costBaseline) with
  | some b => b
  | none =>
    match (objGet siteSettings site).bind (·.costBaseline) with
    | some b => b
    | none => 0

/-- The storage fields `unlockSite`/`pauseSite`/group handlers touch.
(Streak, alarms and `declarativeNetRequest` rules live outside this
state; the claims under verification do not mention them.) -/
structure BGState where
  blockedSites : List String
  config : Config
  unlocks : List (String × Unlock)
  timeLog : List TimeLogEntry
  tasks : List Task
  siteGroups : List Group
  siteSettings : List (String × SiteSettings)
  deriving Repr, DecidableEq

/-- `unlockSite(site)`: `none` when the (cost) requirement is unmet — the
JS returns `null` before any write.  On success the whole group (or the
single site) is unlocked under one `expiresAt`, one time-log entry is
appended for the visited site only, and when a cost was in effect the
owning group's (or the site's) `costBaseline` is stamped with the current
completed count. -/
def unlockSite (st : BGState) (site : String) (now : Nat) : Option (Unlock × BGState) :=
  let cost := getEffectiveCost site st.siteGroups st.siteSettings
  let baseline := getCostBaseline site st.siteGroups st.siteSettings
  if ¬ isCostRequirementMet st.tasks st.config cost baseline then none
  else
    let cooldown := if st.config.cooldownMinutes = 0 then 30 else st.config.cooldownMinutes
    let expiresAt := now + cooldown * 60000
    let group := resolveGroupForSite site st.siteGroups
    let sitesToUnlock := match group with | some g => g.sites | none => [site]
    let unlocks1 := sitesToUnlock.foldl (fun m s => objSet m s ⟨now, expiresAt⟩) st.unlocks
    let timeLog1 := st.timeLog ++ [⟨site, now, none, false, none⟩]
    let unlocks2 := match group with
      | some g => objSet unlocks1 ("group:" ++ g.id) ⟨now, expiresAt⟩
      | none => unlocks1
    let completedNow : Int := countCompleted st.tasks
    let updated :=
      if costGE1 cost then
        match group with
        | some g =>
          (st.siteGroups.map (fun g2 =>
            if g2.id == g.id then { g2 with costBaseline := some completedNow } else g2),
           st.siteSettings)
        | none =>
          let cur := (objGet st.siteSettings site).getD emptySettings
          (st.siteGroups, objSet st.siteSettings site { cur with costBaseline := some completedNow })
      else (st.siteGroups, st.siteSettings)
    (objGet unlocks2 site).map (fun u =>
      (u, { st with
            unlocks := unlocks2
            timeLog := timeLog1
            siteGroups := updated.1
            siteSettings := updated.2 }))

/-- `pauseSite(site, durationMinutes, justification)`: rejects only a
short (< 120 chars, trimmed) justification; a duration outside
`[5, 15, 30]` is silently coerced to 5 minutes and the pause proceeds. -/
def pauseSite (st : BGState) (site : String) (durationMinutes : Int)
    (justification : String) (now : Nat) : Option (Unlock × BGState) :=
  if (jsTrim justification).length < 120 then none
  else
    let duration : Nat :=
      if durationMinutes = 5 ∨ durationMinutes = 15 ∨ durationMinutes = 30
      then durationMinutes.toNat else 5
    let expiresAt := now + duration * 60000
    let group := resolveGroupForSite site st.siteGroups
    let sitesToPause := match group with | some g => g.sites | none => [site]
    let unlocks1 := sitesToPause.foldl (fun m s => objSet m s ⟨now, expiresAt⟩) st.unlocks
    let timeLog1 := st.timeLog ++ [⟨site, now, none, true, some (jsTrim justification)⟩]
    let unlocks2 := match group with
      | some g => objSet unlocks1 ("group:" ++ g.id) ⟨now, expiresAt⟩
      | none => unlocks1
    (objGet unlocks2 site).map (fun u =>
      (u, { st with unlocks := unlocks2, timeLog := timeLog1 }))

/-- `handleMessage` case `addGroup`.  `msg.sites` is modelled as the
already string-typed list (the `typeof === "string"` filter is the
identity there); `crypto.randomUUID()` is the `newId` parameter.
`Except.error e` models the `{ok:false, error:e}` return, which happens
before any storage write (state unchanged). -/
def addGroup (st : BGState) (msgName : String) (msgSites : List String)
    (msgCost : Option Int) (newId : String) (now : Nat) :
    (Except String Group) × BGState :=
  match msgSites.findSome? (fun s =>
      (resolveGroupForSite s st.siteGroups).map (fun g => (s, g))) with
  | some (s, g) => (.error (s ++ " is already in group \"" ++ g.name ++ "\""), st)
  | none =>
    let newGroup : Group :=
      { id := newId
        name := jsTrim (if msgName = "" then "Untitled Group" else msgName)
        sites := msgSites
        cost := match msgCost with
          | some c => if 1 ≤ c then some c else none
          | none => none
        costBaseline := none
        lastLockedAt := some now }
    let blockedSites2 := msgSites.foldl
      (fun bs s => if s ∈ bs then bs else bs ++ [s]) st.blockedSites
    (.ok newGroup, { st with
      siteGroups := st.siteGroups ++ [newGroup]
      blockedSites := blockedSites2 })

/-- `handleMessage` case `updateGroup`.  `none` arguments model
`undefined` message fields. -/
def updateGroup (st : BGState) (msgId : String) (msgName : Option String)
    (msgSites : Option (List String)) (msgCost : Option (Option Int)) :
    (Except String Group) × BGState :=
  match st.siteGroups.find? (fun g => g.id == msgId) with
  | none => (.error "Group not found", st)
  | some group =>
    let newSites := match msgSites with | some s => s | none => group.sites
    match newSites.findSome? (fun s =>
        (resolveGroupForSite s st.siteGroups).bind (fun g =>
          if g.id == msgId then none else some (s, g))) with
    | some (s, g) => (.error (s ++ " is already in group \"" ++ g.name ++ "\""), st)
    | none =>
      let group2 : Group :=
        { group with
          name := match msgName with | some n => jsTrim n | none => group.name
          sites := match msgSites with | some _ => newSites | none => group.sites
          cost := match msgCost with
            | some (some c) => if 1 ≤ c then some c else none
            | some none => none
            | none => group.cost }
      (.ok group2, { st with
        siteGroups := st.siteGroups.map (fun g => if g.id == msgId then group2 else g) })

/-!
### `recreateRelockAlarms` -/

/-- JS `key.startsWith("group:")`, on the character list so it evaluates. -/
def strStartsWith (s pre : String) : Bool := pre.data.isPrefixOf s.data

/-- The keys the dedup loop marks as handled for one group expiry:
every non-`group:` key with the same `expiresAt`. -/
def markHandled (unlocks : List (String × Unlock)) (e : Nat) : List String :=
  (unlocks.filter (fun p => ¬ strStartsWith p.1 "group:" ∧ p.2.expiresAt = e)).map (·.1)

/-- The `for (const [key, unlock] of Object.entries(unlocks))` loop of
`recreateRelockAlarms`, returning the created alarm names and the keys
relocked immediately (both in iteration order). -/
def recreateLoop (allUnlocks : List (String × Unlock)) (now : Nat) :
    List (String × Unlock) → List String → List String → List String →
    (List String × List String)
  | [], _, alarms, relocked => (alarms, relocked)
  | (key, u) :: rest, handled, alarms, relocked =>
    if ¬ strStartsWith key "group:" ∧ key ∈ handled then
      recreateLoop allUnlocks now rest handled alarms relocked
    else if u.expiresAt > now then
      let handled2 :=
        if strStartsWith key "group:" then handled ++ markHandled allUnlocks u.expiresAt
        else handled
      recreateLoop allUnlocks now rest handled2 (alarms ++ ["relock-" ++ key]) relocked
    else
      recreateLoop allUnlocks now rest handled alarms (relocked ++ [key])

/-- `recreateRelockAlarms()` over the persisted `unlocks` object. -/
def recreateRelockAlarms (unlocks : List (String × Unlock)) (now : Nat) :
    List String × List String :=
  recreateLoop unlocks now unlocks [] [] []

/-!
### Chunked sync snapshot store (`writeSyncSnapshot` / `readSyncSnapshot`)

`chrome.storage.sync` is modelled as one meta record plus a partial map
from chunk index to string (keys `tollgateSyncChunk<i>`); `JSON.parse` /
`JSON.stringify` are the abstract `serialize`/`parse` pair of the claim
theorem. -/

def SYNC_CHUNK_SIZE : Nat := 7000

/-- `chunkString(input, size)` on the character list. -/
def chunkList (size : Nat) : List Char → List (List Char)
  | [] => []
  | c :: rest =>
    if h : size = 0 then []
    else (c :: rest).take size :: chunkList size ((c :: rest).drop size)
termination_by l => l.length
decreasing_by
  simp only [List.length_drop, List.length_cons]
  omega

structure SyncMeta where
  version : Nat
  updatedAt : String
  chunks : Nat
  deriving Repr, DecidableEq

structure SyncStore where
  meta : Option SyncMeta
  chunk : Nat → Option String

/-- `writeSyncSnapshot(snapshot)` given the serialized text: writes the
meta record and chunks `0..n-1`, then removes orphaned trailing chunk
keys `n..oldMeta.chunks-1`. -/
def writeSyncSnapshot (serialized : String) (updatedAt : String) (store : SyncStore) :
    Except String (SyncStore × Nat) :=
  let chunks := chunkList SYNC_CHUNK_SIZE serialized.data
  if hlen : chunks.length = 0 then .error "Empty sync snapshot"
  else
    let n := chunks.length
    let oldMeta := store.meta
    .ok ({ meta := some ⟨1, updatedAt, n⟩
           chunk := fun i =>
             if h : i < n then some (String.mk (chunks.get ⟨i, by omega⟩))
             else match oldMeta with
               | some m => if i < m.chunks then none else store.chunk i
               | none => store.chunk i }, n)

/-- Chunk reassembly loop of `readSyncSnapshot`: any missing chunk is the
hard failure `"Sync snapshot is incomplete"`. -/
def assembleChunks (store : SyncStore) (n : Nat) : Except String String :=
  (List.range n).foldlM (fun acc i =>
    match store.chunk i with
    | some c => Except.ok (acc ++ c)
    | none => Except.error "Sync snapshot is incomplete") ""

/-- `readSyncSnapshot()` up to `JSON.parse`: `none` models the `null`
return (no usable meta record). -/
def readSyncSnapshot (store : SyncStore) : Except String (Option String) :=
  match store.meta with
  | none => .ok none
  | some m =>
    if m.chunks = 0 then .ok none
    else (assembleChunks store m.chunks).map some

/-!
### `addSite` normalization -/

/-- `.replace(/^https?:\/\//, "")`. -/
def dropScheme (cs : List Char) : List Char :=
  if ("https://".data).isPrefixOf cs then cs.drop 8
  else if ("http://".data).isPrefixOf cs then cs.drop 7
  else cs

/-- An ECMAScript LineTerminator: the characters the regex `.` does not
match (`\n`, `\r`, U+2028, U+2029). -/
def isLineTerm (c : Char) : Bool :=
  c == '\n' || c == '\r' || c == '\u2028' || c == '\u2029'

/-- `.replace(/\/.*$/, "")`: removes from the first `/` that is not
followed by any line terminator (without the `m` flag, `$` only matches
the end of input and `.` matches everything but a LineTerminator). -/
def dropPathL : List Char → List Char
  | [] => []
  | c :: rest =>
    if c = '/' ∧ ¬ rest.any isLineTerm then [] else c :: dropPathL rest

/-- `.toLowerCase()` (ASCII; `Char.toLower` matches the JS behaviour on
the ASCII domains this handler deals with). -/
def toLowerL (cs : List Char) : List Char := cs.map Char.toLower

/-- The normalization pipeline in `handleMessage` case `addSite`. -/
def normalizeSite (s : String) : String :=
  String.mk (toLowerL (dropPathL (dropScheme s.data)))

/-- `handleMessage` case `addSite`: push only when the normalized domain
is absent; always answers `{ok:true, blockedSites}`. -/
def addSite (blockedSites : List String) (siteSettings : List (String × SiteSettings))
    (msgSite : String) (now : Nat) :
    List String × List (String × SiteSettings) :=
  let site := normalizeSite msgSite
  if site ∈ blockedSites then (blockedSites, siteSettings)
  else
    let cur := (objGet siteSettings site).getD emptySettings
    (blockedSites ++ [site], objSet siteSettings site { cur with lastLockedAt := some now })

/-!
### Claims on the unlock-cost evaluator (C1) -/

theorem find?_map_pres {α : Type} (f : α → α) (p : α → Bool)
    (hp : ∀ x, p (f x) = p x) :
    ∀ l : List α, (l.map f).find? p = (l.find? p).map f := by
  intro l
  induction l with
  | nil => rfl
  | cons hd tl ih =>
    by_cases h : p hd
    · simp only [List.map_cons]
      rw [List.find?_cons_of_pos _ (by rw [hp]; exact h),
        List.find?_cons_of_pos _ h]
      rfl
    · simp only [List.map_cons]
      rw [List.find?_cons_of_neg _ (by rw [hp]; exact h),
        List.find?_cons_of_neg _ h]
      exact ih

/-- C1: with an effective cost `c ≥ 1` (group cost taking precedence over
the per-site cost), readiness holds iff
`(completed count) − costBaseline ≥ c`; with no configured cost the
evaluator degenerates to the all/section requirement (the spec example
`costBaseline = 3`, `cost = 2` is ready exactly at 5 completions); and a
successful cost-gated unlock stamps the owning group's (or the site's)
`costBaseline` with the completed count at unlock time. -/
theorem claim_C1 :
    (∀ (tasks : List Task) (cfg : Config) (c b : Int), 1 ≤ c →
      (isCostRequirementMet tasks cfg (some c) b = true
        ↔ c ≤ (countCompleted tasks : Int) - b)) ∧
    (∀ (tasks : List Task) (cfg : Config) (b : Int),
      isCostRequirementMet tasks cfg none b = isUnlockRequirementMet tasks cfg) ∧
    (∀ (tasks : List Task) (cfg : Config) (c b : Int), c ≤ 0 →
      isCostRequirementMet tasks cfg (some c) b = isUnlockRequirementMet tasks cfg) ∧
    (∀ (tasks : List Task) (cfg : Config),
      (isCostRequirementMet tasks cfg (some 2) 3 = true
        ↔ 5 ≤ (countCompleted tasks : Int))) ∧
    (∀ (site : String) (groups : List Group)
        (settings : List (String × SiteSettings)) (g : Group),
      resolveGroupForSite site groups = some g → costGE1 g.cost = true →
      getEffectiveCost site groups settings = g.cost) ∧
    (∀ (st : BGState) (site : String) (now : Nat) (u : Unlock) (st2 : BGState),
      unlockSite st site now = some (u, st2) →
      costGE1 (getEffectiveCost site st.siteGroups st.siteSettings) = true →
      getCostBaseline site st2.siteGroups st2.siteSettings
        = (countCompleted st.tasks : Int)) := by
  refine ⟨?_, ?_, ?_, ?_, ?_, ?_⟩
  · intro tasks cfg c b hc
    rw [isCostRequirementMet, if_neg (by omega)]
    constructor
    · intro h
      have := of_decide_eq_true h
      omega
    · intro h
      exact decide_eq_true (by omega)
  · intro tasks cfg b
    rfl
  · intro tasks cfg c b hc
    rw [isCostRequirementMet, if_pos hc]
  · intro tasks cfg
    rw [isCostRequirementMet, if_neg (by omega)]
    constructor
    · intro h
      have := of_decide_eq_true h
      omega
    · intro h
      exact decide_eq_true (by omega)
  · intro site groups settings g hg hcost
    rw [getEffectiveCost, hg]
    dsimp only
    rw [if_pos hcost]
  · intro st site now u st2 hu hcost
    rw [unlockSite] at hu
    by_cases hreq : isCostRequirementMet st.tasks st.config
        (getEffectiveCost site st.siteGroups st.siteSettings)
        (getCostBaseline site st.siteGroups st.siteSettings)
    · rw [if_neg (by simpa using hreq)] at hu
      dsimp only at hu
      rw [if_pos hcost] at hu
      cases hg : resolveGroupForSite site st.siteGroups with
      | some g =>
        rw [hg] at hu
        dsimp only at hu
        obtain ⟨u0, _, heq⟩ := Option.map_eq_some'.mp hu
        have hst2 : st2.siteGroups = st.siteGroups.map (fun g2 =>
            if g2.id == g.id
            then { g2 with costBaseline := some ((countCompleted st.tasks : Int)) }
            else g2) ∧ st2.siteSettings = st.siteSettings := by
          have := congrArg Prod.snd heq
          dsimp only at this
          rw [← this]
          exact ⟨rfl, rfl⟩
        obtain ⟨hsg, hss⟩ := hst2
        rw [getCostBaseline, hsg]
        have hres : resolveGroupForSite site (st.siteGroups.map (fun g2 =>
            if g2.id == g.id
            then { g2 with costBaseline := some ((countCompleted st.tasks : Int)) }
            else g2)) = some (if g.id == g.id
              then { g with costBaseline := some ((countCompleted st.tasks : Int)) }
              else g) := by
          rw [resolveGroupForSite,
            find?_map_pres _ _ (by
              intro x
              by_cases hx : x.id == g.id <;> simp [hx])]
          rw [resolveGroupForSite] at hg
          rw [hg]
          rfl
        rw [hres]
        simp
      | none =>
        rw [hg] at hu
        dsimp only at hu
        obtain ⟨u0, _, heq⟩ := Option.map_eq_some'.mp hu
        have hst2 : st2.siteGroups = st.siteGroups
            ∧ st2.siteSettings = objSet st.siteSettings site
              { (objGet st.siteSettings site).getD emptySettings with
                costBaseline := some ((countCompleted st.tasks : Int)) } := by
          have := congrArg Prod.snd heq
          dsimp only at this
          rw [← this]
          exact ⟨rfl, rfl⟩
        obtain ⟨hsg, hss⟩ := hst2
        rw [getCostBaseline, hsg, hg, hss, objGet_objSet_self]
        rfl
    · rw [if_pos (by simpa using hreq)] at hu
      exact absurd hu (by simp)

/-- One completed task; group `g1` owns `x.com` with cost 1, baseline 0. -/
def exC1St : BGState :=
  ⟨["x.com"], ⟨"", 30, .all, ""⟩, [], [],
   [⟨1, "t", true, some "TS", none, "Tasks"⟩],
   [⟨"g1", "G", ["x.com"], some 1, some 0, none⟩], []⟩

/-- The state `unlockSite exC1St "x.com" 0` produces: whole group
unlocked for 30 minutes, baseline stamped to the completed count 1. -/
def exC1StOut : BGState :=
  { exC1St with
    unlocks := [("x.com", ⟨0, 1800000⟩), ("group:g1", ⟨0, 1800000⟩)]
    timeLog := [⟨"x.com", 0, none, false, none⟩]
    siteGroups := [⟨"g1", "G", ["x.com"], some 1, some 1, none⟩] }

/-- Closed instance of `claim_C1` (spec example cost 2 / baseline 3;
group-cost precedence; baseline reset on a concrete unlock). -/
theorem claim_C1_witness :
    (isCostRequirementMet [⟨1, "t", true, some "TS", none, "Tasks"⟩]
        ⟨"", 30, .all, ""⟩ (some 2) 3 = true
      ↔ (5 : Int) ≤ (countCompleted [⟨1, "t", true, some "TS", none, "Tasks"⟩] : Int))
    ∧ getEffectiveCost "x.com" [⟨"g1", "G", ["x.com"], some 1, some 0, none⟩] []
        = some 1
    ∧ getCostBaseline "x.com" exC1StOut.siteGroups exC1StOut.siteSettings
        = (countCompleted exC1St.tasks : Int) :=
  ⟨claim_C1.2.2.2.1 _ _,
   claim_C1.2.2.2.2.1 "x.com" [⟨"g1", "G", ["x.com"], some 1, some 0, none⟩] []
     ⟨"g1", "G", ["x.com"], some 1, some 0, none⟩ (by rfl) (by rfl),
   claim_C1.2.2.2.2.2 exC1St "x.com" 0 ⟨0, 1800000⟩ exC1StOut (by rfl) (by rfl)⟩

/-!
### Claims on `pauseSite` (C2) -/

/-- A 120-character justification (passes the length check). -/
def exJust : String := String.mk (List.replicate 120 'a')

/-- A minimal state: one blocked, ungrouped site. -/
def exPauseSt : BGState := ⟨["x.com"], ⟨"", 30, .all, ""⟩, [], [], [], [], []⟩

set_option maxRecDepth 8000 in
/-- C2 counterexample: duration 7 is outside the allow-list, yet the
pause succeeds (no `{ok:false}`) and state is mutated (a time-log entry
is appended and an unlock record written), refuting "a duration not in
{5, 15, 30} is a validation failure that mutates no state". -/
theorem claim_C2_counterexample :
    (pauseSite exPauseSt "x.com" 7 exJust 0).isSome = true
    ∧ (pauseSite exPauseSt "x.com" 7 exJust 0).map (fun r => r.2.timeLog.length)
        = some 1
    ∧ (pauseSite exPauseSt "x.com" 7 exJust 0).map (fun r => r.2.unlocks.length)
        = some 1 := by
  refine ⟨?_, ?_, ?_⟩ <;> rfl

/-- C2, as amended: only the justification is validated — a trimmed
justification shorter than 120 characters fails with no state mutated
(the JS returns `null` before any read or write, surfaced as
`{ok:false, error}`); a duration outside the allow-list {5, 15, 30} is
*not* rejected but silently coerced to 5 minutes, after which the pause
proceeds exactly as with duration 5. -/
theorem claim_C2 :
    (∀ (st : BGState) (site : String) (d : Int) (j : String) (now : Nat),
      (jsTrim j).length < 120 → pauseSite st site d j now = none) ∧
    (∀ (st : BGState) (site : String) (d : Int) (j : String) (now : Nat),
      ¬ (d = 5 ∨ d = 15 ∨ d = 30) →
      pauseSite st site d j now = pauseSite st site 5 j now) := by
  constructor
  · intro st site d j now hj
    rw [pauseSite, if_pos hj]
  · intro st site d j now hd
    rw [pauseSite, pauseSite]
    by_cases hj : (jsTrim j).length < 120
    · rw [if_pos hj, if_pos hj]
    · rw [if_neg hj, if_neg hj]
      have h1 : (if d = 5 ∨ d = 15 ∨ d = 30 then d.toNat else 5) = 5 := if_neg hd
      have h2 : (if (5 : Int) = 5 ∨ (5 : Int) = 15 ∨ (5 : Int) = 30
          then (5 : Int).toNat else 5) = 5 := by decide
      rw [h1, h2]

/-- Closed instance of `claim_C2`: a short justification is rejected, and
duration 7 behaves exactly like duration 5. -/
theorem claim_C2_witness :
    pauseSite exPauseSt "x.com" 5 "too short" 0 = none
    ∧ pauseSite exPauseSt "x.com" 7 exJust 0 = pauseSite exPauseSt "x.com" 5 exJust 0 :=
  ⟨claim_C2.1 exPauseSt "x.com" 5 "too short" 0 (by decide),
   claim_C2.2 exPauseSt "x.com" 7 exJust 0 (by decide)⟩

/-!
### Claims on group creation validation (C9) -/

/-- C9 counterexample: `addGroup` with an empty name and empty site list
does not fail — it answers `ok` with the placeholder name
"Untitled Group" and an empty `sites` set, and appends the group to
stored state; refuting "empty name or empty member-site list is a
validation failure `{ok:false, error}` with no state mutated (a group's
sites set is always non-empty)". -/
theorem claim_C9_counterexample :
    (addGroup exPauseSt "" [] none "gid1" 5).1
        = Except.ok ⟨"gid1", "Untitled Group", [], none, none, some 5⟩
    ∧ (addGroup exPauseSt "" [] none "gid1" 5).2.siteGroups
        = [⟨"gid1", "Untitled Group", [], none, none, some 5⟩] := by
  exact ⟨rfl, rfl⟩

/-- C9, as amended: creating a group with an empty name and empty
member-site list succeeds: the name defaults to "Untitled Group", the
group is stored with an empty `sites` set, and updating a group to an
empty name and empty site list likewise succeeds (storing them
verbatim) — no validation failure occurs and state is mutated. -/
theorem claim_C9 :
    (∀ (st : BGState) (newId : String) (now : Nat),
      (addGroup st "" [] none newId now).1
          = Except.ok ⟨newId, "Untitled Group", [], none, none, some now⟩
        ∧ (addGroup st "" [] none newId now).2
          = { st with siteGroups :=
                st.siteGroups ++ [⟨newId, "Untitled Group", [], none, none, some now⟩] }) ∧
    (∀ (st : BGState) (msgId : String) (g : Group),
      st.siteGroups.find? (fun g2 => g2.id == msgId) = some g →
      (updateGroup st msgId (some "") (some []) none).1
        = Except.ok { g with name := "", sites := [] }) := by
  constructor
  · intro st newId now
    exact ⟨rfl, rfl⟩
  · intro st msgId g hg
    rw [updateGroup, hg]
    rfl

/-- Closed instance of `claim_C9`'s update part. -/
theorem claim_C9_witness :
    (updateGroup { exPauseSt with
        siteGroups := [⟨"gid1", "G", ["a.com"], none, none, none⟩] }
      "gid1" (some "") (some []) none).1
      = Except.ok ⟨"gid1", "", [], none, none, none⟩ :=
  claim_C9.2 { exPauseSt with
      siteGroups := [⟨"gid1", "G", ["a.com"], none, none, none⟩] }
    "gid1" ⟨"gid1", "G", ["a.com"], none, none, none⟩ (by rfl)

/-!
### Claim on alarm-recovery dedup (C4) -/

/-- C4: with the unlocks object `unlockSite` produces — per-site keys
inserted before the `group:` key, all sharing one unexpired
`expiresAt` — `recreateRelockAlarms` schedules an alarm for *every*
per-site key and then one more for the group key (three alarms, not
one): the dedup marking happens only after the per-site keys were
already iterated, so the claimed deduplication does not occur. -/
theorem claim_C4_dedup_fails :
    recreateRelockAlarms
      [("a.com", ⟨0, 100⟩), ("b.com", ⟨0, 100⟩), ("group:g1", ⟨0, 100⟩)] 0
      = ((["relock-a.com", "relock-b.com", "relock-group:g1"] : List String),
         ([] : List String))
    ∧ (recreateRelockAlarms
        [("a.com", ⟨0, 100⟩), ("b.com", ⟨0, 100⟩), ("group:g1", ⟨0, 100⟩)] 0).1.length
      = 3 := by
  refine ⟨by decide, by decide⟩

/-!
### Claim on group-membership conflict rejection (C3) -/

/-- C3: `addGroup` and `updateGroup` reject a request whose member-site
list contains a site already claimed by a different group: the handler
returns the descriptive conflict error
`<site> is already in group "<name>"` naming a conflicting member site
and the owning group, and the whole state — in particular the stored
`siteGroups` — is exactly as before the call. -/
theorem claim_C3 :
    (∀ (st : BGState) (n : String) (sites : List String) (c : Option Int)
        (nid : String) (now : Nat) (s : String) (g : Group),
      s ∈ sites →
      resolveGroupForSite s st.siteGroups = some g →
      ∃ s2 g2, s2 ∈ sites ∧ resolveGroupForSite s2 st.siteGroups = some g2 ∧
        addGroup st n sites c nid now
          = (.error (s2 ++ " is already in group \"" ++ g2.name ++ "\""), st))
  ∧ (∀ (st : BGState) (msgId : String) (mn : Option String)
        (ms : Option (List String)) (mc : Option (Option Int))
        (group : Group) (s : String) (g : Group),
      st.siteGroups.find? (fun g => g.id == msgId) = some group →
      s ∈ (match ms with | some l => l | none => group.sites) →
      resolveGroupForSite s st.siteGroups = some g →
      g.id ≠ msgId →
      ∃ s2 g2, s2 ∈ (match ms with | some l => l | none => group.sites) ∧
        resolveGroupForSite s2 st.siteGroups = some g2 ∧ g2.id ≠ msgId ∧
        updateGroup st msgId mn ms mc
          = (.error (s2 ++ " is already in group \"" ++ g2.name ++ "\""), st)) := by
  constructor
  · intro st n sites c nid now s g hs hres
    cases h2 : sites.findSome? (fun s =>
        (resolveGroupForSite s st.siteGroups).map (fun g => (s, g))) with
    | none =>
      have hnone := List.findSome?_eq_none_iff.mp h2 s hs
      simp only [hres, Option.map_some'] at hnone
      exact Option.noConfusion hnone
    | some p =>
      obtain ⟨a, ha, hfa⟩ := List.exists_of_findSome?_eq_some h2
      rw [Option.map_eq_some'] at hfa
      obtain ⟨ga, hga, rfl⟩ := hfa
      refine ⟨a, ga, ha, hga, ?_⟩
      unfold addGroup
      rw [h2]
  · intro st msgId mn ms mc group s g hfind hs hres hne
    cases h2 : (match ms with | some l => l | none => group.sites).findSome?
        (fun s => (resolveGroupForSite s st.siteGroups).bind (fun g =>
          if g.id == msgId then none else some (s, g))) with
    | none =>
      have hnone := List.findSome?_eq_none_iff.mp h2 s hs
      simp only [hres, Option.some_bind] at hnone
      rw [if_neg (by simpa using hne)] at hnone
      exact Option.noConfusion hnone
    | some p =>
      obtain ⟨a, ha, hfa⟩ := List.exists_of_findSome?_eq_some h2
      rw [Option.bind_eq_some] at hfa
      obtain ⟨ga, hga, hif⟩ := hfa
      by_cases hid : (ga.id == msgId) = true
      · rw [if_pos hid] at hif
        exact Option.noConfusion hif
      · rw [if_neg hid] at hif
        injection hif with hp
        subst hp
        refine ⟨a, ga, ha, hga, by simpa using hid, ?_⟩
        rw [updateGroup, hfind]
        dsimp only
        rw [h2]

def exC3Group : Group := ⟨"gid1", "G", ["a.com"], none, none, none⟩

def exC3St : BGState :=
  { exPauseSt with
    siteGroups := [exC3Group, ⟨"gid2", "H", ["b.com"], none, none, none⟩] }

/-- Witness for C3: adding a group containing `a.com` (already in group
`G`) and pointing group `H` at `a.com` both fail with the conflict
error and leave the state untouched. -/
theorem claim_C3_witness :
    (∃ s2 g2, s2 ∈ ["a.com"] ∧ resolveGroupForSite s2 exC3St.siteGroups = some g2 ∧
      addGroup exC3St "N" ["a.com"] none "nid9" 0
        = (.error (s2 ++ " is already in group \"" ++ g2.name ++ "\""), exC3St))
  ∧ (∃ s2 g2, s2 ∈ ["a.com"] ∧
      resolveGroupForSite s2 exC3St.siteGroups = some g2 ∧ g2.id ≠ "gid2" ∧
      updateGroup exC3St "gid2" none (some ["a.com"]) none
        = (.error (s2 ++ " is already in group \"" ++ g2.name ++ "\""), exC3St)) :=
  ⟨claim_C3.1 exC3St "N" ["a.com"] none "nid9" 0 "a.com" exC3Group
      (by decide) (by rfl),
   claim_C3.2 exC3St "gid2" none (some ["a.com"]) none
      ⟨"gid2", "H", ["b.com"], none, none, none⟩ "a.com" exC3Group
      (by rfl) (by decide) (by rfl) (by decide)⟩

/-!
### Claim on the chunked sync round-trip (C8) -/

theorem chunkList_join (size : Nat) (hs : 0 < size) :
    ∀ cs : List Char, (chunkList size cs).flatten = cs
  | [] => by rw [chunkList]; rfl
  | c :: rest => by
    rw [chunkList, dif_neg (by omega), List.flatten_cons,
      chunkList_join size hs ((c :: rest).drop size)]
    exact List.take_append_drop size (c :: rest)
termination_by cs => cs.length
decreasing_by simp only [List.length_drop, List.length_cons]; omega

/-- The reassembly fold over chunk indices `k, k+1, …`, when every
indexed chunk is present, concatenates them onto the accumulator. -/
theorem assembleGo (store : SyncStore) :
    ∀ (cl : List (List Char)) (k : Nat) (acc : String),
      (∀ i (hi : i < cl.length), store.chunk (k + i) = some (String.mk (cl.get ⟨i, hi⟩))) →
      (List.range' k cl.length).foldlM (fun acc i =>
          match store.chunk i with
          | some c => Except.ok (acc ++ c)
          | none => Except.error "Sync snapshot is incomplete") acc
        = Except.ok (acc ++ String.mk cl.flatten)
  | [], k, acc, h => by
    rw [List.length_nil, show List.range' k 0 = [] from rfl, List.foldlM_nil]
    show Except.ok acc = _
    rw [show String.mk ([] : List (List Char)).flatten = "" from rfl, String.append_empty]
  | c :: cl, k, acc, h => by
    rw [List.length_cons, List.range'_succ, List.foldlM_cons]
    have h0 := h 0 (by simp)
    rw [Nat.add_zero] at h0
    rw [h0]
    show (List.range' (k + 1) cl.length).foldlM (fun acc i =>
        match store.chunk i with
        | some c => Except.ok (acc ++ c)
        | none => Except.error "Sync snapshot is incomplete") (acc ++ String.mk c)
      = Except.ok (acc ++ String.mk (c :: cl).flatten)
    rw [assembleGo store cl (k + 1) (acc ++ String.mk c) (fun i hi => by
      have h1 := h (i + 1) (by simpa using Nat.succ_lt_succ hi)
      rw [show k + (i + 1) = k + 1 + i from by omega] at h1
      simpa using h1)]
    rw [List.flatten_cons]
    congr 1
    rw [String.append_assoc]
    rfl

/-- When chunks `0 … cl.length - 1` are all present, `readSyncSnapshot`'s
reassembly loop returns their in-order concatenation. -/
theorem assembleChunks_ok (store : SyncStore) (cl : List (List Char))
    (h : ∀ i (hi : i < cl.length), store.chunk i = some (String.mk (cl.get ⟨i, hi⟩))) :
    assembleChunks store cl.length = .ok (String.mk cl.flatten) := by
  rw [assembleChunks, List.range_eq_range']
  rw [assembleGo store cl 0 "" (fun i hi => by rw [Nat.zero_add]; exact h i hi)]
  rfl

/-- The success case of `writeSyncSnapshot`: a nonempty serialization is
written as a meta record carrying the chunk count plus one record per
chunk, each holding the corresponding fixed-size fragment. -/
theorem writeSyncSnapshot_ok (serialized updatedAt : String) (store : SyncStore)
    (hlen : ¬ (chunkList SYNC_CHUNK_SIZE serialized.data).length = 0) :
    ∃ st2,
      writeSyncSnapshot serialized updatedAt store
        = .ok (st2, (chunkList SYNC_CHUNK_SIZE serialized.data).length)
      ∧ st2.meta = some ⟨1, updatedAt, (chunkList SYNC_CHUNK_SIZE serialized.data).length⟩
      ∧ ∀ i (hi : i < (chunkList SYNC_CHUNK_SIZE serialized.data).length),
          st2.chunk i
            = some (String.mk ((chunkList SYNC_CHUNK_SIZE serialized.data).get ⟨i, hi⟩)) := by
  unfold writeSyncSnapshot
  dsimp only
  rw [dif_neg hlen]
  exact ⟨_, rfl, rfl, fun i hi => by dsimp only; rw [dif_pos hi]⟩

/-- C8: for every snapshot `S` (with `JSON.stringify`/`JSON.parse`
abstracted as any `serialize`/`parse` pair with `parse ∘ serialize = id`
at `S` and a nonempty serialization), `writeSyncSnapshot` succeeds, the
in-order concatenation of chunks `0 … count-1` of the written store is
exactly the original serialization, and `readSyncSnapshot` returns it,
so it parses back to a snapshot equal to `S`. -/
theorem claim_C8 (α : Type) (S : α) (serialize : α → String)
    (parse : String → Option α) (store : SyncStore) (updatedAt : String)
    (hrt : parse (serialize S) = some S)
    (hne : (serialize S).data ≠ []) :
    ∃ store2 n,
      writeSyncSnapshot (serialize S) updatedAt store = .ok (store2, n)
      ∧ assembleChunks store2 n = .ok (serialize S)
      ∧ readSyncSnapshot store2 = .ok (some (serialize S))
      ∧ parse (serialize S) = some S := by
  have hjoin : (chunkList SYNC_CHUNK_SIZE (serialize S).data).flatten = (serialize S).data :=
    chunkList_join _ (by decide) _
  have hlen : ¬ (chunkList SYNC_CHUNK_SIZE (serialize S).data).length = 0 := by
    intro h0
    apply hne
    rw [← hjoin, List.length_eq_zero.mp h0]
    rfl
  obtain ⟨store2, hw, hmeta, hchunk⟩ :=
    writeSyncSnapshot_ok (serialize S) updatedAt store hlen
  have hA : assembleChunks store2 (chunkList SYNC_CHUNK_SIZE (serialize S).data).length
      = .ok (serialize S) := by
    rw [assembleChunks_ok store2 _ hchunk, hjoin]
  refine ⟨store2, _, hw, hA, ?_, hrt⟩
  rw [readSyncSnapshot, hmeta]
  dsimp only
  rw [if_neg hlen, hA]
  rfl

def exC8serialize (n : Nat) : String := String.mk (List.replicate n 'a')

def exC8parse (s : String) : Option Nat := some s.data.length

def exC8Store : SyncStore := ⟨none, fun _ => none⟩

/-- Witness for C8: the snapshot `3` under the serialization `"aaa"`
round-trips through an empty store. -/
theorem claim_C8_witness :
    (exC8parse (exC8serialize 3) = some 3 ∧ (exC8serialize 3).data ≠ []) ∧
    ∃ store2 n,
      writeSyncSnapshot (exC8serialize 3) "t" exC8Store = .ok (store2, n)
      ∧ assembleChunks store2 n = .ok (exC8serialize 3)
      ∧ readSyncSnapshot store2 = .ok (some (exC8serialize 3))
      ∧ exC8parse (exC8serialize 3) = some 3 :=
  ⟨⟨by decide, by decide⟩,
   claim_C8 Nat 3 exC8serialize exC8parse exC8Store "t" (by decide) (by decide)⟩

/-!
### Claim on addSite normalization and distinctness (C10) -/

theorem dropScheme_https (r : List Char) : dropScheme ("https://".data ++ r) = r := by
  rw [dropScheme,
    if_pos (by rw [List.isPrefixOf_iff_prefix]; exact List.prefix_append _ _)]
  have h8 : ("https://".data).length = 8 := rfl
  rw [← h8, List.drop_left]

theorem dropScheme_http (r : List Char) : dropScheme ("http://".data ++ r) = r := by
  rw [dropScheme,
    if_neg (by
      rw [show ("https://".data.isPrefixOf ("http://".data ++ r)) = false from rfl]
      exact Bool.false_ne_true),
    if_pos (by rw [List.isPrefixOf_iff_prefix]; exact List.prefix_append _ _)]
  have h7 : ("http://".data).length = 7 := rfl
  rw [← h7, List.drop_left]

theorem mem_dropScheme {a : Char} {cs : List Char} (h : a ∈ dropScheme cs) : a ∈ cs := by
  rw [dropScheme] at h
  split at h
  · exact List.mem_of_mem_drop h
  · split at h
    · exact List.mem_of_mem_drop h
    · exact h

/-- On inputs without a line terminator — every URL the handler sees —
the path-stripping replace keeps exactly the characters before the
first `/`. -/
theorem dropPathL_no_lineterm :
    ∀ cs : List Char, ¬ cs.any isLineTerm = true →
      dropPathL cs = cs.takeWhile (fun c => !(c == '/'))
  | [], _ => rfl
  | c :: rest, h => by
    have h2 : ¬ rest.any isLineTerm = true := by
      simp only [List.any_cons, Bool.or_eq_true, not_or] at h
      exact h.2
    rw [dropPathL, List.takeWhile_cons]
    by_cases hc : c = '/'
    · rw [if_pos ⟨hc, h2⟩, if_neg (by simp [hc])]
    · rw [if_neg (fun hcon => hc hcon.1), if_pos (by simp [hc]),
        dropPathL_no_lineterm rest h2]

/-- C10: `addSite` normalizes its input — a leading `http://` or
`https://` is stripped, everything from the first `/` of the remainder
(for inputs free of line terminators) is cut, and the result is
lowercased — and it preserves distinctness of `blockedSites`: a
normalized domain already present leaves the state unchanged, and a
`Nodup` blocked list stays `Nodup`, so `addSite` never introduces a
duplicate entry. -/
theorem claim_C10 :
    (∀ r : List Char,
      dropScheme ("http://".data ++ r) = r ∧ dropScheme ("https://".data ++ r) = r)
  ∧ (∀ s : String, ¬ s.data.any isLineTerm = true →
      normalizeSite s
        = String.mk (((dropScheme s.data).takeWhile (fun c => !(c == '/'))).map Char.toLower))
  ∧ (∀ (bs : List String) (ss : List (String × SiteSettings)) (s : String) (now : Nat),
      normalizeSite s ∈ bs → addSite bs ss s now = (bs, ss))
  ∧ (∀ (bs : List String) (ss : List (String × SiteSettings)) (s : String) (now : Nat),
      bs.Nodup → (addSite bs ss s now).1.Nodup) := by
  refine ⟨fun r => ⟨dropScheme_http r, dropScheme_https r⟩, ?_, ?_, ?_⟩
  · intro s h
    have hd : ¬ (dropScheme s.data).any isLineTerm = true := by
      intro hm
      rw [List.any_eq_true] at hm
      obtain ⟨a, ha, hla⟩ := hm
      exact h (List.any_eq_true.mpr ⟨a, mem_dropScheme ha, hla⟩)
    rw [normalizeSite, toLowerL, dropPathL_no_lineterm _ hd]
  · intro bs ss s now hmem
    unfold addSite
    dsimp only
    rw [if_pos hmem]
  · intro bs ss s now hnd
    unfold addSite
    dsimp only
    by_cases hmem : normalizeSite s ∈ bs
    · rw [if_pos hmem]
      exact hnd
    · rw [if_neg hmem]
      dsimp only
      rw [List.nodup_append]
      refine ⟨hnd, List.nodup_singleton _, ?_⟩
      intro a ha hax
      rw [List.mem_singleton] at hax
      exact hmem (hax ▸ ha)

/-- Witness for C10: concrete scheme stripping, the full normalization
of `http://Ex.com/p`, an already-present domain leaving state unchanged,
and `Nodup` preservation on a fresh insert. -/
theorem claim_C10_witness :
    (dropScheme ("http://".data ++ "ex.com".data) = "ex.com".data
      ∧ dropScheme ("https://".data ++ "ex.com".data) = "ex.com".data)
  ∧ normalizeSite "http://Ex.com/p"
      = String.mk (((dropScheme ("http://Ex.com/p".data)).takeWhile
          (fun c => !(c == '/'))).map Char.toLower)
  ∧ addSite ["x.com"] [] "x.com" 0 = (["x.com"], [])
  ∧ (addSite ["x.com"] [] "http://a.com/p" 0).1.Nodup :=
  ⟨claim_C10.1 "ex.com".data,
   claim_C10.2.1 "http://Ex.com/p" (by decide),
   claim_C10.2.2.1 ["x.com"] [] "x.com" 0 (by decide),
   claim_C10.2.2.2 ["x.com"] [] "http://a.com/p" 0 (by decide)⟩

end Tollgate
